import Mathlib

/-!
Verification of the line-oriented text mutation engine of
`src/base_editor.py` (class `BaseCodeEditor`).

The host widget stores the document as one flat character stream in which
blocks (lines) are separated by the paragraph separator character U+2029;
a cursor is a pair of absolute offsets `(anchor, position)` into that
stream.  We embed the document as `List Char` and each editor operation as
a function from the flat text and the cursor offsets to the new text and
cursor offsets, translating the `QTextCursor` primitives used by the
Python code (`StartOfBlock`, `EndOfBlock`, `Up`, `Down`, `NextCharacter`,
`removeSelectedText`, `insertText`, `selectedText`, `positionInBlock`,
`blockNumber`, `findBlock`) one by one.  `insertText` converts `"\n"` in
its argument to a block separator, which is why the model uses a single
separator character throughout.  Soft line wrapping is not modelled
(line = block), matching the spec's data model.
-/

namespace MindustryEditor

/-- The block (paragraph) separator character of the host text document. -/
def sep : Char := '\u2029'

/-- `notSep c` holds when `c` is not the block separator. -/
def notSep (c : Char) : Bool := c != sep

/-- A character list containing no block separator (content of a single line). -/
def sepFree (l : List Char) : Prop := ∀ c ∈ l, c ≠ sep

/-- A flat-text fragment that is empty or ends with a separator, so whatever
follows it starts at the beginning of a line. -/
def sepEnds (l : List Char) : Prop := l = [] ∨ l.getLast? = some sep

/-- A flat-text fragment that is empty or starts with a separator, so whatever
precedes it ends a line. -/
def sepStarts (l : List Char) : Prop := l = [] ∨ l.head? = some sep

instance (l : List Char) : Decidable (sepFree l) := by
  unfold sepFree; infer_instance

instance (l : List Char) : Decidable (sepEnds l) := by
  unfold sepEnds; infer_instance

instance (l : List Char) : Decidable (sepStarts l) := by
  unfold sepStarts; infer_instance

/-- Absolute offset of the start of the block containing position `p`
(`QTextCursor.StartOfBlock`; equal to `StartOfLine` without wrapping). -/
def startOfBlock (t : List Char) (p : Nat) : Nat :=
  p - ((t.take p).reverse.takeWhile notSep).length

/-- Column of position `p` inside its block (`QTextCursor.positionInBlock`). -/
def posInBlock (t : List Char) (p : Nat) : Nat :=
  p - startOfBlock t p

/-- Absolute offset of the end of the block containing position `p`
(`QTextCursor.EndOfBlock` / `EndOfLine`). -/
def endOfBlock (t : List Char) (p : Nat) : Nat :=
  p + ((t.drop p).takeWhile notSep).length

/-- Text of the block containing position `p` (`QTextBlock.text`). -/
def blockText (t : List Char) (p : Nat) : List Char :=
  (t.drop (startOfBlock t p)).takeWhile notSep

/-- Index of the block containing position `p` (`QTextBlock.blockNumber`):
the number of separators strictly before `p`. -/
def blockNumber (t : List Char) (p : Nat) : Nat :=
  (t.take p).count sep

/-- Number of lines of the document (`QTextDocument.blockCount`): one more
than the number of separators.  An empty document has one empty line. -/
def lineCount (t : List Char) : Nat := t.count sep + 1

/-- The document as its ordered list of lines (split at separators). -/
def linesOf : List Char → List (List Char)
  | [] => [[]]
  | c :: rest =>
    if c = sep then [] :: linesOf rest
    else
      match linesOf rest with
      | [] => [[c]]
      | l :: ls => (c :: l) :: ls

/-- Join a list of lines back into flat text with one separator between lines. -/
def joinLines : List (List Char) → List Char
  | [] => []
  | [l] => l
  | l :: ls => l ++ sep :: joinLines ls

/-- The text of the range `[a, b)` of the flat stream (`selectedText`). -/
def slice (t : List Char) (a b : Nat) : List Char := (t.drop a).take (b - a)

/-- Delete the range `[a, b)` (`removeSelectedText` on a cursor with
anchor `a` and position `b`). -/
def removeRange (t : List Char) (a b : Nat) : List Char := t.take a ++ t.drop b

/-- Insert `s` at offset `a` (`insertText` with an empty selection). -/
def insertAt (t : List Char) (a : Nat) (s : List Char) : List Char :=
  t.take a ++ s ++ t.drop a

/-- `QTextCursor.Up`: move to the previous line keeping the column, clamped
to that line's length; at the first line the cursor does not move. -/
def cursorUp (t : List Char) (p : Nat) : Nat :=
  if startOfBlock t p = 0 then p
  else
    let pb := startOfBlock t (startOfBlock t p - 1)
    pb + min (posInBlock t p) ((t.drop pb).takeWhile notSep).length

/-- `QTextCursor.Down`: move to the next line keeping the column, clamped
to that line's length; at the last line the cursor does not move. -/
def cursorDown (t : List Char) (p : Nat) : Nat :=
  if endOfBlock t p = t.length then p
  else
    let nb := endOfBlock t p + 1
    nb + min (posInBlock t p) ((t.drop nb).takeWhile notSep).length

/-!  The editor operations, one Lean function per Python method.  Each
function takes the flat document text and the cursor offsets it reads and
returns the new text together with the cursor offsets it leaves behind. -/

/-- `BaseCodeEditor.enlarge_selection`: expand the cursor's selection
`[s, e)` to whole-line bounds and return the resulting
`(selectionStart, selectionEnd)` pair.  The Python method's return value
is the difference of the two components. -/
def enlarge_selection (t : List Char) (s e : Nat) : Nat × Nat :=
  if s = e then
    (startOfBlock t s, endOfBlock t s)
  else
    (startOfBlock t s,
      if posInBlock t e = 0 then e - 1 else endOfBlock t e)

/-- `BaseCodeEditor.comment_line`: insert `#` (when the line starts with a
space) or `# ` (otherwise) at the start of the line containing `p`;
returns the new text and the cursor position after the insertion. -/
def comment_line (t : List Char) (p : Nat) : List Char × Nat :=
  let L := blockText t p
  let a := startOfBlock t p
  let ins := if L.head? = some ' ' then ['#'] else ['#', ' ']
  (insertAt t a ins, a + ins.length)

/-- `BaseCodeEditor.remove_comment`: from the start of the line containing
`p`, select the next 2 characters when the line starts with `# `, else the
next 1 character (`NextCharacter` moves across block boundaries and stops
at the end of the document), and delete the selection. -/
def remove_comment (t : List Char) (p : Nat) : List Char × Nat :=
  let L := blockText t p
  let a := startOfBlock t p
  let off : Nat := if L.take 2 = ['#', ' '] then 2 else 1
  let b := min (a + off) t.length
  (removeRange t a b, a)

/-- `BaseCodeEditor.toggle_line_comment`: remove the comment when the line
containing the cursor position starts with `#`, else insert one.  Only the
document result is used by the caller (the mutated cursor copy is
discarded). -/
def toggle_line_comment (t : List Char) (pos : Nat) : List Char :=
  if (blockText t pos).head? = some '#' then (remove_comment t pos).1
  else (comment_line t pos).1

/-- Apply `f` to the lines with indices in `[i, j]`, leaving others
unchanged; `k` is the index of the first line of the list.  This is the
`while current_block.blockNumber() <= end_block.blockNumber()` loop of
`toggle_block_comment`, which walks the blocks from the selection's first
line to its last line and edits each one in place. -/
def mapRange (i j : Nat) (f : List Char → List Char) :
    Nat → List (List Char) → List (List Char)
  | _, [] => []
  | k, l :: ls =>
    (if i ≤ k ∧ k ≤ j then f l else l) :: mapRange i j f (k + 1) ls

/-- Line-level effect of `remove_comment` on a line that starts with `#`
(hence is nonempty, so the cursor's 1- or 2-character selection stays
inside the line). -/
def uncomment_str (l : List Char) : List Char :=
  if l.take 2 = ['#', ' '] then l.drop 2 else l.drop 1

/-- Line-level effect of `comment_line`. -/
def comment_str (l : List Char) : List Char :=
  if l.head? = some ' ' then '#' :: l else '#' :: ' ' :: l

/-- A line starts with the comment marker (`str.startswith("#")`). -/
def startsWithHash (l : List Char) : Bool := l.head? = some '#'

/-- `BaseCodeEditor.toggle_block_comment` for the selection `[s, e)`:
the affected range runs from the line containing `s` to the line
containing `e`; the block is a comment block iff every line in the range
starts with `#`; then every line in the range is uncommented (all of them
start with `#`, so `remove_comment` acts inside each line) or commented. -/
def toggle_block_comment (t : List Char) (s e : Nat) : List Char :=
  let i := blockNumber t s
  let j := blockNumber t e
  let ls := linesOf t
  let allC := ((ls.drop i).take (j + 1 - i)).all startsWithHash
  joinLines (mapRange i j
    (fun l => if allC then uncomment_str l else comment_str l) 0 ls)

/-- `BaseCodeEditor.comment_toggle`: block semantics when there is a
selection spanning more than one line, line semantics otherwise. -/
def comment_toggle (t : List Char) (anchor pos : Nat) : List Char :=
  if anchor ≠ pos ∧
      blockNumber t (min anchor pos) ≠ blockNumber t (max anchor pos) then
    toggle_block_comment t (min anchor pos) (max anchor pos)
  else
    toggle_line_comment t pos

/-- `BaseCodeEditor.remove_selected_lines`: enlarge the selection to whole
lines and delete the enlarged span; the cursor collapses to its start. -/
def remove_selected_lines (t : List Char) (s e : Nat) : List Char × Nat :=
  let a := (enlarge_selection t s e).1
  let b := (enlarge_selection t s e).2
  (removeRange t a b, a)

/-- `BaseCodeEditor.remove_current_line`: when the current line has text,
select the block under the cursor (which includes the preceding separator
except at the first block) and delete it, then move to the end of line;
when the line is empty, delete the previous character. -/
def remove_current_line (t : List Char) (p : Nat) : List Char × Nat :=
  if (blockText t p).length > 0 then
    let a := if startOfBlock t p = 0 then 0 else startOfBlock t p - 1
    let b := endOfBlock t p
    let t1 := removeRange t a b
    (t1, endOfBlock t1 a)
  else
    if p = 0 then (t, p) else (removeRange t (p - 1) p, p - 1)

/-- `BaseCodeEditor.remove_lines`: dispatch on whether the cursor has an
active selection. -/
def remove_lines (t : List Char) (anchor pos : Nat) : List Char × (Nat × Nat) :=
  if anchor ≠ pos then
    let r := remove_selected_lines t (min anchor pos) (max anchor pos)
    (r.1, (r.2, r.2))
  else
    let r := remove_current_line t pos
    (r.1, (r.2, r.2))

/-- `selected_text in (" ", " ", "\u000A", "\u000C", "\u000D", "")`:
the no-op test of the duplicate operations. -/
def isNoopSelText (l : List Char) : Prop :=
  l = [] ∨ l = [sep] ∨ l = ['\u2028'] ∨ l = ['\u000A'] ∨
    l = ['\u000C'] ∨ l = ['\u000D']

instance (l : List Char) : Decidable (isNoopSelText l) := by
  unfold isNoopSelText; infer_instance

/-- `BaseCodeEditor.duplicate_lines_down`: enlarge the selection to whole
lines, no-op when the selected text is empty or a lone separator,
otherwise replace the selection with two copies of it separated by one
separator and select the lower copy (extended by one character when the
selected text ends with a separator). -/
def duplicate_lines_down (t : List Char) (anchor pos : Nat) :
    List Char × (Nat × Nat) :=
  let s := min anchor pos
  let e := max anchor pos
  let a := (enlarge_selection t s e).1
  let b := (enlarge_selection t s e).2
  let len := b - a
  let T := slice t a b
  if isNoopSelText T then (t, (anchor, pos))
  else
    let off : Nat := if T.getLast? = some sep then 1 else 0
    let t1 := t.take a ++ T ++ sep :: (T ++ t.drop b)
    let cpos := a + T.length + 1 + T.length
    (t1, (cpos - len, cpos + off))

/-- `BaseCodeEditor.move_current_line_up`: select from the start of the
previous line to the end of the current line, replace the span by the two
line texts swapped, go up one line and restore the cursor's column. -/
def move_current_line_up (t : List Char) (p : Nat) : List Char × Nat :=
  let cur := blockText t p
  let prev := blockText t (startOfBlock t p - 1)
  let pib := posInBlock t p
  let selEnd := endOfBlock t p
  let selStart := startOfBlock t (cursorUp t selEnd)
  let t1 := t.take selStart ++ cur ++ sep :: (prev ++ t.drop selEnd)
  let cpos := selStart + cur.length + 1 + prev.length
  let cpos2 := cursorUp t1 cpos
  (t1, cpos2 + pib - posInBlock t1 cpos2)

/-- `BaseCodeEditor.move_current_line_down`: select from the start of the
current line to the end of the next line, replace the span by the two line
texts swapped and restore the cursor's column. -/
def move_current_line_down (t : List Char) (p : Nat) : List Char × Nat :=
  let cur := blockText t p
  let next := blockText t (endOfBlock t p + 1)
  let pib := posInBlock t p
  let selStart := startOfBlock t p
  let selEnd := endOfBlock t (cursorDown t (startOfBlock t p))
  let t1 := t.take selStart ++ next ++ sep :: (cur ++ t.drop selEnd)
  let cpos := selStart + next.length + 1 + cur.length
  (t1, cpos + pib - posInBlock t1 cpos)

/-- `BaseCodeEditor.move_selected_lines_up`: record the raw selection
length and the column of its start, enlarge to whole lines; no-op when the
first selected line has no previous line; otherwise delete the enlarged
span, select from the start of the previous line upward, re-insert the
span followed by the previous line's text, and restore a selection of the
recorded raw length starting at the previous line's old start plus the
recorded column. -/
def move_selected_lines_up (t : List Char) (anchor pos : Nat) :
    List Char × (Nat × Nat) :=
  let s := min anchor pos
  let e := max anchor pos
  let selLen := e - s
  let relStart := posInBlock t s
  let a := (enlarge_selection t s e).1
  let b := (enlarge_selection t s e).2
  let prevStart := startOfBlock t (a - 1)
  if blockNumber t a = 0 then (t, (anchor, pos))
  else
    let T := slice t a b
    let prevText := blockText t (a - 1)
    let t1 := removeRange t a b
    let p1 := startOfBlock t1 a
    let p2 := cursorUp t1 p1
    let t2 := t1.take (min p1 p2) ++ T ++ sep :: (prevText ++ t1.drop (max p1 p2))
    (t2, (prevStart + relStart, prevStart + relStart + selLen))

/-- `BaseCodeEditor.move_selected_lines_down`: symmetric to
`move_selected_lines_up`, swapping the enlarged span with the next line. -/
def move_selected_lines_down (t : List Char) (anchor pos : Nat) :
    List Char × (Nat × Nat) :=
  let s := min anchor pos
  let e := max anchor pos
  let oldLen := e - s
  let relStart := posInBlock t s
  let a := (enlarge_selection t s e).1
  let b := (enlarge_selection t s e).2
  let selLen := b - a
  let nextText := blockText t (endOfBlock t b + 1)
  if endOfBlock t b = t.length then (t, (anchor, pos))
  else
    let T := slice t a b
    let t1 := removeRange t a b
    let p1 := cursorDown t1 a
    let p2 := endOfBlock t1 p1
    let t2 := t1.take (min a p2) ++ nextText ++ sep :: (T ++ t1.drop (max a p2))
    let cpos := min a p2 + nextText.length + 1 + T.length
    (t2, (cpos - selLen + relStart, cpos - selLen + relStart + oldLen))

/-- `BaseCodeEditor.move_lines_up`: no-op when the cursor's block has no
previous block (the cursor copy's movements are discarded, so the visible
document and selection are untouched); otherwise dispatch on whether there
is a selection. -/
def move_lines_up (t : List Char) (anchor pos : Nat) :
    List Char × (Nat × Nat) :=
  if blockNumber t pos = 0 then (t, (anchor, pos))
  else if anchor ≠ pos then move_selected_lines_up t anchor pos
  else
    let r := move_current_line_up t pos
    (r.1, (r.2, r.2))

/-- `BaseCodeEditor.move_lines_down`: no-op when the cursor's block has no
next block; otherwise dispatch on whether there is a selection. -/
def move_lines_down (t : List Char) (anchor pos : Nat) :
    List Char × (Nat × Nat) :=
  if endOfBlock t pos = t.length then (t, (anchor, pos))
  else if anchor ≠ pos then move_selected_lines_down t anchor pos
  else
    let r := move_current_line_down t pos
    (r.1, (r.2, r.2))

/-! ### Basic lemmas about separator-free fragments and `linesOf` -/

theorem notSep_of_sepFree {l : List Char} (h : sepFree l) {c : Char}
    (hc : c ∈ l) : notSep c := by
  simpa [notSep] using h c hc

theorem takeWhile_notSep_eq_self {l : List Char} (h : sepFree l) :
    l.takeWhile notSep = l := by
  induction l with
  | nil => rfl
  | cons c l ih =>
    rw [List.takeWhile_cons_of_pos (notSep_of_sepFree h (by simp)),
      ih fun x hx => h x (by simp [hx])]

theorem takeWhile_notSep_sepStarts {l : List Char} (h : sepStarts l) :
    l.takeWhile notSep = [] := by
  rcases h with h | h
  · simp [h]
  · cases l with
    | nil => rfl
    | cons c l =>
      simp only [List.head?_cons, Option.some.injEq] at h
      exact List.takeWhile_cons_of_neg (by simp [notSep, h])

theorem takeWhile_notSep_append {l₁ l₂ : List Char} (h : sepFree l₁) :
    (l₁ ++ l₂).takeWhile notSep = l₁ ++ l₂.takeWhile notSep :=
  List.takeWhile_append_of_pos fun a ha => notSep_of_sepFree h ha

theorem sepFree_takeWhile (l : List Char) : sepFree (l.takeWhile notSep) := by
  intro c hc
  simpa [notSep] using List.mem_takeWhile_imp hc

theorem sepFree_append {l₁ l₂ : List Char} (h₁ : sepFree l₁) (h₂ : sepFree l₂) :
    sepFree (l₁ ++ l₂) := by
  intro c hc
  rcases List.mem_append.1 hc with h | h
  · exact h₁ c h
  · exact h₂ c h

theorem sepFree_take {l : List Char} (h : sepFree l) (n : Nat) :
    sepFree (l.take n) := fun c hc => h c (List.mem_of_mem_take hc)

theorem sepFree_drop {l : List Char} (h : sepFree l) (n : Nat) :
    sepFree (l.drop n) := fun c hc => h c (List.mem_of_mem_drop hc)

theorem count_sep_eq_zero {l : List Char} (h : sepFree l) : l.count sep = 0 :=
  List.count_eq_zero.2 fun hmem => h sep hmem rfl

theorem sepEnds_append_sep (A : List Char) : sepEnds (A ++ [sep]) :=
  Or.inr (List.getLast?_concat A)

theorem sepEnds_of_append {A B : List Char} (hB : sepEnds B) (h : B ≠ []) :
    sepEnds (A ++ B) := by
  rcases hB with hB | hB
  · exact absurd hB h
  · exact Or.inr (by rw [List.getLast?_append_of_ne_nil A h]; exact hB)

theorem linesOf_ne_nil (t : List Char) : linesOf t ≠ [] := by
  induction t with
  | nil => simp [linesOf]
  | cons c rest ih =>
    by_cases hc : c = sep
    · simp [linesOf, hc]
    · simp only [linesOf, if_neg hc]
      cases h : linesOf rest <;> simp

theorem linesOf_append_sep (X Y : List Char) :
    linesOf (X ++ sep :: Y) = linesOf X ++ linesOf Y := by
  induction X with
  | nil => simp [linesOf]
  | cons c X ih =>
    by_cases hc : c = sep
    · simp [linesOf, hc, ih]
    · cases h : linesOf X with
      | nil => exact absurd h (linesOf_ne_nil X)
      | cons l ls =>
        have h2 : linesOf (X ++ sep :: Y) = l :: (ls ++ linesOf Y) := by
          rw [ih, h]; rfl
        simp [linesOf, hc, h, h2]

theorem linesOf_sepFree {X : List Char} (h : sepFree X) : linesOf X = [X] := by
  induction X with
  | nil => rfl
  | cons c X ih =>
    have hc : c ≠ sep := h c (by simp)
    simp only [linesOf, if_neg hc, ih fun x hx => h x (by simp [hx])]

theorem length_linesOf (t : List Char) : (linesOf t).length = t.count sep + 1 := by
  induction t with
  | nil => simp [linesOf]
  | cons c rest ih =>
    by_cases hc : c = sep
    · simp [linesOf, hc, ih]
    · simp only [linesOf, if_neg hc]
      cases h : linesOf rest with
      | nil => exact absurd h (linesOf_ne_nil rest)
      | cons l ls =>
        rw [h] at ih
        simp only [List.length_cons] at ih ⊢
        rw [List.count_cons_of_ne (Ne.symm hc), ih]

theorem lineCount_eq_length_linesOf (t : List Char) :
    lineCount t = (linesOf t).length := (length_linesOf t).symm ▸ rfl

theorem sepFree_of_mem_linesOf {t l : List Char} (h : l ∈ linesOf t) :
    sepFree l := by
  induction t generalizing l with
  | nil => simp [linesOf] at h; simp [h, sepFree]
  | cons c rest ih =>
    by_cases hc : c = sep
    · simp only [linesOf, if_pos hc, List.mem_cons] at h
      rcases h with h | h
      · simp [h, sepFree]
      · exact ih h
    · simp only [linesOf, if_neg hc] at h
      cases heq : linesOf rest with
      | nil => exact absurd heq (linesOf_ne_nil rest)
      | cons l₀ ls =>
        rw [heq] at h
        simp only [List.mem_cons] at h
        rcases h with h | h
        · subst h
          intro x hx
          rcases List.mem_cons.1 hx with hx | hx
          · simpa [hx] using hc
          · exact ih (heq ▸ List.mem_cons_self l₀ ls) x hx
        · exact ih (heq ▸ List.mem_cons_of_mem l₀ h)

theorem linesOf_joinLines : ∀ (ls : List (List Char)),
    (∀ l ∈ ls, sepFree l) → ls ≠ [] → linesOf (joinLines ls) = ls
  | [], _, hne => absurd rfl hne
  | [l], h, _ => by
    simpa [joinLines] using linesOf_sepFree (h l (by simp))
  | l :: l' :: ls, h, _ => by
    have : joinLines (l :: l' :: ls) = l ++ sep :: joinLines (l' :: ls) := rfl
    rw [this, linesOf_append_sep, linesOf_sepFree (h l (by simp)),
      linesOf_joinLines (l' :: ls) (fun x hx => h x (by simp [hx])) (by simp)]
    rfl

/-! ### Computing the block primitives on a decomposed document

Throughout, the document is written `A ++ L ++ B` where `L` is the text of
one line (separator-free), `A` is everything before it (ending with a
separator or empty) and `B` is everything after it (starting with a
separator or empty); positions on the line `L` are `A.length + c` with
`c ≤ L.length`. -/

theorem take_decomp {A L B : List Char} {c : Nat} (hc : c ≤ L.length) :
    (A ++ (L ++ B)).take (A.length + c) = A ++ L.take c := by
  rw [List.take_append, List.take_append_eq_append_take,
    Nat.sub_eq_zero_of_le hc, List.take_zero, List.append_nil]

theorem drop_decomp {A L B : List Char} {c : Nat} (hc : c ≤ L.length) :
    (A ++ (L ++ B)).drop (A.length + c) = L.drop c ++ B := by
  rw [List.drop_append, List.drop_append_eq_append_drop,
    Nat.sub_eq_zero_of_le hc, List.drop_zero]

theorem startOfBlock_decomp {A L B : List Char} {c : Nat}
    (hA : sepEnds A) (hL : sepFree L) (hc : c ≤ L.length) :
    startOfBlock (A ++ (L ++ B)) (A.length + c) = A.length := by
  have htake := take_decomp (A := A) (B := B) hc
  have hfree : sepFree (L.take c).reverse := fun x hx =>
    sepFree_take hL c x (List.mem_reverse.1 hx)
  have hrev : (A ++ L.take c).reverse.takeWhile notSep = (L.take c).reverse := by
    rw [List.reverse_append, takeWhile_notSep_append hfree,
      takeWhile_notSep_sepStarts]
    · simp
    · rcases hA with hA | hA
      · exact Or.inl (by simp [hA])
      · exact Or.inr (by rw [List.head?_reverse]; exact hA)
  rw [startOfBlock, htake, hrev, List.length_reverse,
    List.length_take_of_le hc, Nat.add_sub_cancel]

theorem posInBlock_decomp {A L B : List Char} {c : Nat}
    (hA : sepEnds A) (hL : sepFree L) (hc : c ≤ L.length) :
    posInBlock (A ++ (L ++ B)) (A.length + c) = c := by
  rw [posInBlock, startOfBlock_decomp hA hL hc, Nat.add_sub_cancel_left]

theorem endOfBlock_decomp {A L B : List Char} {c : Nat}
    (hB : sepStarts B) (hL : sepFree L) (hc : c ≤ L.length) :
    endOfBlock (A ++ (L ++ B)) (A.length + c) = A.length + L.length := by
  rw [endOfBlock, drop_decomp hc, takeWhile_notSep_append (sepFree_drop hL c),
    takeWhile_notSep_sepStarts hB, List.append_nil, List.length_drop]
  omega

theorem blockText_decomp {A L B : List Char} {c : Nat}
    (hA : sepEnds A) (hB : sepStarts B) (hL : sepFree L) (hc : c ≤ L.length) :
    blockText (A ++ (L ++ B)) (A.length + c) = L := by
  rw [blockText, startOfBlock_decomp hA hL hc, ← Nat.add_zero A.length,
    drop_decomp (Nat.zero_le _), List.drop_zero, takeWhile_notSep_append hL,
    takeWhile_notSep_sepStarts hB, List.append_nil]

theorem blockNumber_decomp {A L B : List Char} {c : Nat}
    (hL : sepFree L) (hc : c ≤ L.length) :
    blockNumber (A ++ (L ++ B)) (A.length + c) = A.count sep := by
  rw [blockNumber, take_decomp hc, List.count_append,
    count_sep_eq_zero (sepFree_take hL c), Nat.add_zero]

/-! ### General bounds and decomposition at an arbitrary position -/

theorem length_takeWhile_le (p : Char → Bool) (l : List Char) :
    (l.takeWhile p).length ≤ l.length := (List.takeWhile_sublist p).length_le

theorem posInBlock_eq (t : List Char) (p : Nat) :
    posInBlock t p = ((t.take p).reverse.takeWhile notSep).length := by
  have h1 : ((t.take p).reverse.takeWhile notSep).length ≤ (t.take p).length :=
    le_trans (length_takeWhile_le _ _) (by simp)
  have h2 : (t.take p).length ≤ p := by simp [List.length_take]
  unfold posInBlock startOfBlock
  omega

theorem startOfBlock_le (t : List Char) (p : Nat) : startOfBlock t p ≤ p :=
  Nat.sub_le _ _

theorem le_endOfBlock (t : List Char) (p : Nat) : p ≤ endOfBlock t p :=
  Nat.le_add_right _ _

theorem endOfBlock_le_length {t : List Char} {p : Nat} (hp : p ≤ t.length) :
    endOfBlock t p ≤ t.length := by
  have h1 : ((t.drop p).takeWhile notSep).length ≤ (t.drop p).length :=
    length_takeWhile_le _ _
  simp only [List.length_drop] at h1
  unfold endOfBlock
  omega

theorem startOfBlock_add_posInBlock (t : List Char) (p : Nat) :
    startOfBlock t p + posInBlock t p = p := by
  have h1 : ((t.take p).reverse.takeWhile notSep).length ≤ (t.take p).length :=
    le_trans (length_takeWhile_le _ _) (by simp)
  have h2 : (t.take p).length ≤ p := by simp [List.length_take]
  unfold posInBlock startOfBlock
  omega

theorem dropWhile_head_not {p : Char → Bool} :
    ∀ {l : List Char} {c : Char} {cs : List Char},
      l.dropWhile p = c :: cs → p c = false := by
  intro l
  induction l with
  | nil => intro c cs h; simp [List.dropWhile] at h
  | cons a l ih =>
    intro c cs h
    rw [List.dropWhile_cons] at h
    split at h
    · exact ih h
    · rename_i hpa
      cases h
      simpa using hpa

/-- Canonical decomposition of a document at any valid position: the text
before the position's line, the line itself and the text after it. -/
theorem line_decomp (t : List Char) (p : Nat) (hp : p ≤ t.length) :
    ∃ A L B, t = A ++ (L ++ B) ∧ sepEnds A ∧ sepFree L ∧ sepStarts B ∧
      startOfBlock t p = A.length ∧ posInBlock t p ≤ L.length ∧
      p = A.length + posInBlock t p ∧ blockText t p = L ∧
      endOfBlock t p = A.length + L.length := by
  obtain ⟨C, X, hCdef, hXdef⟩ :
      ∃ C X, C = ((t.take p).reverse.takeWhile notSep).reverse ∧
        X = ((t.take p).reverse.dropWhile notSep).reverse := ⟨_, _, rfl, rfl⟩
  obtain ⟨F, B, hFdef, hBdef⟩ :
      ∃ F B, F = (t.drop p).takeWhile notSep ∧
        B = (t.drop p).dropWhile notSep := ⟨_, _, rfl, rfl⟩
  have htp : t.take p = X ++ C := by
    rw [hXdef, hCdef, ← List.reverse_append, List.takeWhile_append_dropWhile,
      List.reverse_reverse]
  have hXC : X.length + C.length = p := by
    have h := congrArg List.length htp
    simp only [List.length_append] at h
    rw [List.length_take_of_le hp] at h
    omega
  have hpib : posInBlock t p = C.length := by
    rw [posInBlock_eq, hCdef]; simp
  have hsob : startOfBlock t p = X.length := by
    have h := startOfBlock_add_posInBlock t p
    omega
  have hCfree : sepFree C := by
    intro c hc
    rw [hCdef] at hc
    have := List.mem_takeWhile_imp (List.mem_reverse.1 hc)
    simpa [notSep] using this
  have hFfree : sepFree F := hFdef ▸ sepFree_takeWhile _
  have hXends : sepEnds X := by
    rw [hXdef]
    cases hd : (t.take p).reverse.dropWhile notSep with
    | nil => exact Or.inl (by simp)
    | cons d ds =>
      have hds : d = sep := by simpa [notSep] using dropWhile_head_not hd
      exact Or.inr (by simp [hds])
  have hBstarts : sepStarts B := by
    rw [hBdef]
    cases hd : (t.drop p).dropWhile notSep with
    | nil => exact Or.inl rfl
    | cons d ds =>
      have hds : d = sep := by simpa [notSep] using dropWhile_head_not hd
      exact Or.inr (by simp [hds])
  have hdp : t.drop p = F ++ B := by
    rw [hFdef, hBdef, List.takeWhile_append_dropWhile]
  have ht : t = X ++ ((C ++ F) ++ B) := by
    conv_lhs => rw [← List.take_append_drop p t]
    rw [htp, hdp]
    simp [List.append_assoc]
  refine ⟨X, C ++ F, B, ht, hXends, sepFree_append hCfree hFfree, hBstarts,
    hsob, ?_, ?_, ?_, ?_⟩
  · rw [hpib]; simp
  · rw [hpib]; omega
  · rw [blockText, hsob]
    have hdX : t.drop X.length = (C ++ F) ++ B := by
      conv_lhs => rw [ht]
      exact List.drop_left' rfl
    rw [hdX, List.append_assoc, takeWhile_notSep_append hCfree,
      takeWhile_notSep_append hFfree, takeWhile_notSep_sepStarts hBstarts,
      List.append_nil]
  · rw [endOfBlock, hdp, takeWhile_notSep_append hFfree,
      takeWhile_notSep_sepStarts hBstarts, List.append_nil]
    simp only [List.length_append]
    omega

/-! ### Counting separators across removals -/

theorem count_removeRange {t : List Char} {a b : Nat} (hab : a ≤ b)
    (hb : b ≤ t.length) :
    (removeRange t a b).count sep + (slice t a b).count sep = t.count sep := by
  have h1 : t.drop a = slice t a b ++ t.drop b := by
    rw [slice]
    have h0 : t.drop b = (t.drop a).drop (b - a) := by
      rw [List.drop_drop]
      congr 1
      omega
    rw [h0, List.take_append_drop]
  have h2 : t.count sep = (t.take a).count sep + (t.drop a).count sep := by
    conv_lhs => rw [← List.take_append_drop a t]
    exact List.count_append ..
  rw [removeRange, List.count_append, h2, h1, List.count_append]
  omega

theorem blockNumber_sub {t : List Char} {a b : Nat} (hab : a ≤ b) :
    blockNumber t b = blockNumber t a + (slice t a b).count sep := by
  have h1 : t.take b = t.take a ++ slice t a b := by
    rw [slice]
    conv_lhs => rw [show b = a + (b - a) by omega]
    exact List.take_add ..
  rw [blockNumber, blockNumber, h1, List.count_append]

theorem enlarge_selection_bounds {t : List Char} {s e : Nat}
    (hse : s ≤ e) (he : e ≤ t.length) :
    (enlarge_selection t s e).1 ≤ s ∧
    (enlarge_selection t s e).1 ≤ (enlarge_selection t s e).2 ∧
    (enlarge_selection t s e).2 ≤ t.length := by
  unfold enlarge_selection
  by_cases hc : s = e
  · subst hc
    simp only [if_pos rfl]
    exact ⟨startOfBlock_le t s,
      le_trans (startOfBlock_le t s) (le_endOfBlock t s),
      endOfBlock_le_length he⟩
  · rw [if_neg hc]
    have hslt : s < e := lt_of_le_of_ne hse hc
    by_cases hp : posInBlock t e = 0
    · simp only [if_pos hp]
      have h1 := startOfBlock_le t s
      exact ⟨h1, by omega, by omega⟩
    · simp only [if_neg hp]
      have h1 := startOfBlock_le t s
      have h2 := le_endOfBlock t e
      have h3 := endOfBlock_le_length he
      exact ⟨h1, by omega, h3⟩

theorem sepFree_reverse {l : List Char} (h : sepFree l) : sepFree l.reverse :=
  fun c hc => h c (List.mem_reverse.1 hc)

theorem startOfBlock_eq_zero_of_blockNumber_zero {t : List Char} {p : Nat}
    (hp : p ≤ t.length) (h : blockNumber t p = 0) : startOfBlock t p = 0 := by
  have hfree : sepFree (t.take p) := by
    intro c hc hcs
    subst hcs
    exact List.count_eq_zero.1 h hc
  unfold startOfBlock
  rw [takeWhile_notSep_eq_self (sepFree_reverse hfree), List.length_reverse,
    List.length_take_of_le hp, Nat.sub_self]

theorem sepEnds_eq_dropLast {A : List Char} (hA : sepEnds A) (hne : A ≠ []) :
    A = A.dropLast ++ [sep] := by
  rcases hA with h | h
  · exact absurd h hne
  · conv_lhs => rw [← List.dropLast_concat_getLast hne]
    rw [List.getLast?_eq_getLast _ hne] at h
    simp only [Option.some.injEq] at h
    rw [h]

/-! ### Claim C1 (line removal with an active selection) -/

/-- C1 is false as stated: for the document `"ab‚cd"` (two lines) and the
active single-line selection `[0, 1)`, `remove_lines` removes only the
enlarged span `[0, 2)` and not its enclosing terminator, leaving the blank
first line behind: the result still has 2 lines, not `2 - 1 = 1`. -/
theorem C1_counterexample :
    lineCount (remove_lines (['a', 'b', sep, 'c', 'd']) 0 1).1 = 2 ∧
    lineCount (['a', 'b', sep, 'c', 'd'] : List Char) = 2 ∧
    blockNumber (['a', 'b', sep, 'c', 'd'] : List Char) 1
        - blockNumber (['a', 'b', sep, 'c', 'd'] : List Char) 0 + 1 = 1 ∧
    (remove_lines (['a', 'b', sep, 'c', 'd']) 0 1).1 = [sep, 'c', 'd'] := by
  decide

/-- C1 (amended): for every document and every active selection,
`remove_lines` normalizes the selection to whole lines and removes exactly
the enlarged span, excluding the enclosing line terminators, so a blank
line replaces the removed lines: the resulting line count is the original
line count minus (number of selected whole lines - 1). -/
theorem C1_remove_lines_line_count (t : List Char) (anchor pos : Nat)
    (hsel : anchor ≠ pos) (hval : max anchor pos ≤ t.length) :
    lineCount (remove_lines t anchor pos).1 +
      (blockNumber t (enlarge_selection t (min anchor pos) (max anchor pos)).2
        - blockNumber t (enlarge_selection t (min anchor pos) (max anchor pos)).1)
      = lineCount t := by
  obtain ⟨h1, h2, h3⟩ := enlarge_selection_bounds (t := t) min_le_max hval
  have hrl : (remove_lines t anchor pos).1 =
      removeRange t (enlarge_selection t (min anchor pos) (max anchor pos)).1
        (enlarge_selection t (min anchor pos) (max anchor pos)).2 := by
    simp [remove_lines, hsel, remove_selected_lines]
  rw [hrl]
  have hcount := count_removeRange h2 h3
  have hbn := blockNumber_sub (t := t) h2
  unfold lineCount
  omega

theorem C1_remove_lines_line_count_witness :
    (0 : Nat) ≠ 2 ∧ max 0 2 ≤ (['a', 'b', sep, 'c', 'd'] : List Char).length ∧
    lineCount (remove_lines (['a', 'b', sep, 'c', 'd']) 0 2).1 +
      (blockNumber (['a', 'b', sep, 'c', 'd'] : List Char)
          (enlarge_selection (['a', 'b', sep, 'c', 'd']) (min 0 2) (max 0 2)).2
        - blockNumber (['a', 'b', sep, 'c', 'd'] : List Char)
          (enlarge_selection (['a', 'b', sep, 'c', 'd']) (min 0 2) (max 0 2)).1)
      = lineCount (['a', 'b', sep, 'c', 'd'] : List Char) :=
  ⟨by decide, by decide,
    C1_remove_lines_line_count _ 0 2 (by decide) (by decide)⟩

/-! ### Claim C3 (selection length after a selection move) -/

/-- C3 is false as stated: for the three-line document `"ab‚cd‚ef"` and the
multi-line selection `[4, 7)` (its start on line 1 and its end on line 2,
neither at a line bound), the move up is not a boundary no-op, yet
`move_selected_lines_up` returns a selection of length 3 (the raw input
length) while the selection enlarged to whole lines has length 5; the
multi-line selection `[1, 4)` (spanning lines 0 and 1) shows the same for
`move_selected_lines_down`. -/
theorem C3_counterexample :
    blockNumber (['a', 'b', sep, 'c', 'd', sep, 'e', 'f']) 4
        ≠ blockNumber (['a', 'b', sep, 'c', 'd', sep, 'e', 'f']) 7 ∧
    blockNumber (['a', 'b', sep, 'c', 'd', sep, 'e', 'f'])
        (enlarge_selection (['a', 'b', sep, 'c', 'd', sep, 'e', 'f']) 4 7).1
      ≠ 0 ∧
    (enlarge_selection (['a', 'b', sep, 'c', 'd', sep, 'e', 'f']) 4 7).2
        - (enlarge_selection (['a', 'b', sep, 'c', 'd', sep, 'e', 'f']) 4 7).1
      = 5 ∧
    (move_selected_lines_up (['a', 'b', sep, 'c', 'd', sep, 'e', 'f']) 4 7).2.2
        - (move_selected_lines_up
            (['a', 'b', sep, 'c', 'd', sep, 'e', 'f']) 4 7).2.1 = 3 ∧
    blockNumber (['a', 'b', sep, 'c', 'd', sep, 'e', 'f']) 1
        ≠ blockNumber (['a', 'b', sep, 'c', 'd', sep, 'e', 'f']) 4 ∧
    endOfBlock (['a', 'b', sep, 'c', 'd', sep, 'e', 'f'])
        (enlarge_selection (['a', 'b', sep, 'c', 'd', sep, 'e', 'f']) 1 4).2
      ≠ (['a', 'b', sep, 'c', 'd', sep, 'e', 'f'] : List Char).length ∧
    (enlarge_selection (['a', 'b', sep, 'c', 'd', sep, 'e', 'f']) 1 4).2
        - (enlarge_selection (['a', 'b', sep, 'c', 'd', sep, 'e', 'f']) 1 4).1
      = 5 ∧
    (move_selected_lines_down
        (['a', 'b', sep, 'c', 'd', sep, 'e', 'f']) 1 4).2.2
        - (move_selected_lines_down
            (['a', 'b', sep, 'c', 'd', sep, 'e', 'f']) 1 4).2.1 = 3 := by
  decide

/-- C3 (amended): for every document and selection for which the move is
not a boundary no-op, the selection returned by `move_selected_lines_up`
(resp. `move_selected_lines_down`) has length `end - start` equal to the
length of the raw input selection (before enlargement to whole lines). -/
theorem C3_moveSelected_selection_length (t : List Char) (anchor pos : Nat)
    (hu : blockNumber t
      (enlarge_selection t (min anchor pos) (max anchor pos)).1 ≠ 0)
    (hd : endOfBlock t
      (enlarge_selection t (min anchor pos) (max anchor pos)).2 ≠ t.length) :
    (move_selected_lines_up t anchor pos).2.2
        - (move_selected_lines_up t anchor pos).2.1
      = max anchor pos - min anchor pos ∧
    (move_selected_lines_down t anchor pos).2.2
        - (move_selected_lines_down t anchor pos).2.1
      = max anchor pos - min anchor pos := by
  constructor
  · simp only [move_selected_lines_up, if_neg hu]
    omega
  · simp only [move_selected_lines_down, if_neg hd]
    omega

theorem C3_moveSelected_selection_length_witness :
    blockNumber (['a', sep, 'b', sep, 'c', sep, 'd'] : List Char)
        (enlarge_selection (['a', sep, 'b', sep, 'c', sep, 'd'])
          (min 2 5) (max 2 5)).1
      ≠ 0 ∧
    endOfBlock (['a', sep, 'b', sep, 'c', sep, 'd'] : List Char)
        (enlarge_selection (['a', sep, 'b', sep, 'c', sep, 'd'])
          (min 2 5) (max 2 5)).2
      ≠ (['a', sep, 'b', sep, 'c', sep, 'd'] : List Char).length ∧
    ((move_selected_lines_up (['a', sep, 'b', sep, 'c', sep, 'd']) 2 5).2.2
        - (move_selected_lines_up
            (['a', sep, 'b', sep, 'c', sep, 'd']) 2 5).2.1
      = max 2 5 - min 2 5 ∧
     (move_selected_lines_down (['a', sep, 'b', sep, 'c', sep, 'd']) 2 5).2.2
        - (move_selected_lines_down
            (['a', sep, 'b', sep, 'c', sep, 'd']) 2 5).2.1
      = max 2 5 - min 2 5) :=
  ⟨by decide, by decide,
    C3_moveSelected_selection_length _ 2 5 (by decide) (by decide)⟩

/-! ### Claim C5 (move up is a no-op at the first line) -/

/-- C5: for every document and every selection state whose start lies on
the first line (a caret anywhere on the first line, or any selection that
includes the first line, in either direction), `move_lines_up` returns the
document and the selection unchanged: the boundary guards fire before any
document mutation, and the mutated cursor copy is discarded. -/
theorem C5_move_lines_up_noop (t : List Char) (anchor pos : Nat)
    (hval : max anchor pos ≤ t.length)
    (hfirst : blockNumber t (min anchor pos) = 0) :
    move_lines_up t anchor pos = (t, (anchor, pos)) := by
  by_cases hp : blockNumber t pos = 0
  · simp [move_lines_up, hp]
  · have hap : anchor ≠ pos := by
      intro h
      subst h
      simp only [min_self] at hfirst
      exact hp hfirst
    have hminle : min anchor pos ≤ t.length := le_trans min_le_max hval
    have hsob : startOfBlock t (min anchor pos) = 0 :=
      startOfBlock_eq_zero_of_blockNumber_zero hminle hfirst
    have ha : (enlarge_selection t (min anchor pos) (max anchor pos)).1 = 0 := by
      unfold enlarge_selection
      split <;> simp [hsob]
    have hguard : blockNumber t
        ((enlarge_selection t (min anchor pos) (max anchor pos)).1) = 0 := by
      rw [ha]
      simp [blockNumber]
    simp [move_lines_up, hp, hap, move_selected_lines_up, hguard]

theorem C5_move_lines_up_noop_witness :
    max 4 0 ≤ (['a', sep, 'b', sep, 'c'] : List Char).length ∧
    blockNumber (['a', sep, 'b', sep, 'c'] : List Char) (min 4 0) = 0 ∧
    move_lines_up (['a', sep, 'b', sep, 'c']) 4 0
      = ((['a', sep, 'b', sep, 'c'] : List Char), (4, 0)) :=
  ⟨by decide, by decide, C5_move_lines_up_noop _ 4 0 (by decide) (by decide)⟩

/-! ### Claim C9 (remove_comment on a line without the marker) -/

/-- C9 is false as stated: on the empty last line of `"a‚"` (which does
not start with `#`), `remove_comment` is a no-op, because the one-character
selection from the start of the line cannot move past the end of the
document. -/
theorem C9_counterexample :
    (blockText (['a', sep]) 2).head? ≠ some '#' ∧
    remove_comment (['a', sep]) 2 = ((['a', sep] : List Char), 2) := by
  decide

/-- C9 (amended): for every nonempty line that does not start with `#`,
`remove_comment` deletes exactly the line's first character (always one
character, since such a line cannot start with `# `); on an empty line it
instead deletes the following separator, or nothing at the end of the
document. -/
theorem C9_remove_comment_first_char (A L B : List Char) (c : Nat)
    (hA : sepEnds A) (hL : sepFree L) (hB : sepStarts B)
    (hc : c ≤ L.length) (hne : L ≠ []) (hhash : L.head? ≠ some '#') :
    remove_comment (A ++ (L ++ B)) (A.length + c)
      = (A ++ (L.drop 1 ++ B), A.length) := by
  have hbt : blockText (A ++ (L ++ B)) (A.length + c) = L :=
    blockText_decomp hA hB hL hc
  have hsob : startOfBlock (A ++ (L ++ B)) (A.length + c) = A.length :=
    startOfBlock_decomp hA hL hc
  have hofftake : L.take 2 ≠ ['#', ' '] := by
    intro h
    apply hhash
    cases L with
    | nil => simp at h
    | cons x xs =>
      simp only [List.take_succ_cons, List.cons.injEq] at h
      simp [h.1]
  have hL1 : 1 ≤ L.length := by
    cases L
    · exact absurd rfl hne
    · simp
  have hlen : A.length + 1 ≤ (A ++ (L ++ B)).length := by
    simp only [List.length_append]
    omega
  have hdrop : (A ++ (L ++ B)).drop (A.length + 1) = L.drop 1 ++ B :=
    drop_decomp hL1
  have hkey : remove_comment (A ++ (L ++ B)) (A.length + c)
      = (removeRange (A ++ (L ++ B)) A.length (A.length + 1), A.length) := by
    simp only [remove_comment, hbt, hsob, if_neg hofftake, min_eq_left hlen]
  rw [hkey]
  unfold removeRange
  rw [List.take_left, hdrop]

theorem C9_remove_comment_first_char_witness :
    sepEnds ['a', sep] ∧ sepFree ['b', 'c'] ∧ sepStarts ([] : List Char) ∧
    (1 : Nat) ≤ (['b', 'c'] : List Char).length ∧
    (['b', 'c'] : List Char) ≠ [] ∧
    (['b', 'c'] : List Char).head? ≠ some '#' ∧
    remove_comment (['a', sep] ++ (['b', 'c'] ++ []))
        ((['a', sep] : List Char).length + 1)
      = (['a', sep] ++ ((['b', 'c'] : List Char).drop 1 ++ []),
          (['a', sep] : List Char).length) :=
  ⟨by decide, by decide, by decide, by decide, by decide, by decide,
    C9_remove_comment_first_char ['a', sep] ['b', 'c'] [] 1
      (by decide) (by decide) (by decide) (by decide) (by decide) (by decide)⟩

/-! ### Claim C10 (remove_lines with no active selection) -/

/-- C10: with no active selection and the caret on a nonempty line,
`remove_lines` selects the block under the cursor.  That selection includes
the preceding separator except at the first block, so: on a non-first line
the line and its preceding terminator are removed and the line count drops
by exactly one; on the first line of a multi-line document only the line's
text is removed, an empty first line remains and the line count is
unchanged. -/
theorem C10_remove_current_line_spec (A L B : List Char) (c : Nat)
    (hA : sepEnds A) (hL : sepFree L) (hB : sepStarts B)
    (hc : c ≤ L.length) (hne : L ≠ []) :
    (A ≠ [] →
      (remove_lines (A ++ (L ++ B)) (A.length + c) (A.length + c)).1
          = A.dropLast ++ B ∧
      lineCount (A ++ (L ++ B)) =
        lineCount (remove_lines (A ++ (L ++ B)) (A.length + c) (A.length + c)).1
          + 1) ∧
    (A = [] → B ≠ [] →
      (remove_lines (A ++ (L ++ B)) (A.length + c) (A.length + c)).1 = B ∧
      lineCount (remove_lines (A ++ (L ++ B)) (A.length + c) (A.length + c)).1
        = lineCount (A ++ (L ++ B)) ∧
      (linesOf (remove_lines (A ++ (L ++ B)) (A.length + c) (A.length + c)).1).head?
        = some []) := by
  have hbt : blockText (A ++ (L ++ B)) (A.length + c) = L :=
    blockText_decomp hA hB hL hc
  have hsob : startOfBlock (A ++ (L ++ B)) (A.length + c) = A.length :=
    startOfBlock_decomp hA hL hc
  have heob : endOfBlock (A ++ (L ++ B)) (A.length + c) = A.length + L.length :=
    endOfBlock_decomp hB hL hc
  have hLpos : 0 < L.length := by
    cases L
    · exact absurd rfl hne
    · simp
  have hdropL : (A ++ (L ++ B)).drop (A.length + L.length) = B := by
    have h := drop_decomp (A := A) (B := B) (le_refl L.length)
    simpa using h
  have hdisp : (remove_lines (A ++ (L ++ B)) (A.length + c) (A.length + c)).1
      = (remove_current_line (A ++ (L ++ B)) (A.length + c)).1 := by
    simp [remove_lines]
  constructor
  · intro hAne
    have hAlen : 1 ≤ A.length := by
      cases A
      · exact absurd rfl hAne
      · simp
    have hAsplit : A = A.dropLast ++ [sep] := sepEnds_eq_dropLast hA hAne
    have htake : (A ++ (L ++ B)).take (A.length - 1) = A.dropLast := by
      conv_lhs => rw [hAsplit, List.append_assoc]
      exact List.take_left' (by simp)
    have hres : (remove_lines (A ++ (L ++ B)) (A.length + c) (A.length + c)).1
        = A.dropLast ++ B := by
      rw [hdisp]
      have hrcl : (remove_current_line (A ++ (L ++ B)) (A.length + c)).1
          = removeRange (A ++ (L ++ B)) (A.length - 1) (A.length + L.length) := by
        simp only [remove_current_line, hbt, hsob, heob, if_pos hLpos,
          if_neg (by omega : ¬ A.length = 0)]
      rw [hrcl]
      unfold removeRange
      rw [htake, hdropL]
    refine ⟨hres, ?_⟩
    rw [hres]
    unfold lineCount
    conv_lhs => rw [hAsplit, List.append_assoc]
    simp only [List.count_append, count_sep_eq_zero hL]
    have hone : ([sep] : List Char).count sep = 1 := by simp
    omega
  · intro hAnil hBne
    subst hAnil
    simp only [List.nil_append, List.length_nil, Nat.zero_add] at hbt hsob heob hdisp hdropL ⊢
    rcases hB with hBn | hBh
    · exact absurd hBn hBne
    have hres : (remove_lines (L ++ B) c c).1 = B := by
      rw [hdisp]
      have hrcl : (remove_current_line (L ++ B) c).1
          = removeRange (L ++ B) 0 L.length := by
        simp only [remove_current_line, hbt, hsob, heob, if_pos hLpos,
          if_pos rfl]
        simp
      rw [hrcl]
      unfold removeRange
      rw [List.take_zero, List.drop_left' rfl, List.nil_append]
    refine ⟨hres, ?_, ?_⟩
    · rw [hres]
      unfold lineCount
      rw [List.count_append, count_sep_eq_zero hL]
      omega
    · rw [hres]
      cases B with
      | nil => exact absurd rfl hBne
      | cons b bs =>
        simp only [List.head?_cons, Option.some.injEq] at hBh
        subst hBh
        simp [linesOf]

theorem C10_remove_current_line_spec_witness :
    sepEnds ['a', sep] ∧ sepFree ['c', 'd'] ∧ sepStarts ([] : List Char) ∧
    (1 : Nat) ≤ (['c', 'd'] : List Char).length ∧
    (['c', 'd'] : List Char) ≠ [] ∧
    ((['a', sep] : List Char) ≠ [] →
      (remove_lines (['a', sep] ++ (['c', 'd'] ++ []))
          ((['a', sep] : List Char).length + 1)
          ((['a', sep] : List Char).length + 1)).1
        = (['a', sep] : List Char).dropLast ++ [] ∧
      lineCount (['a', sep] ++ (['c', 'd'] ++ [])) =
        lineCount (remove_lines (['a', sep] ++ (['c', 'd'] ++ []))
          ((['a', sep] : List Char).length + 1)
          ((['a', sep] : List Char).length + 1)).1 + 1) :=
  ⟨by decide, by decide, by decide, by decide, by decide,
    (C10_remove_current_line_spec ['a', sep] ['c', 'd'] [] 1
      (by decide) (by decide) (by decide) (by decide) (by decide)).1⟩

/-- A position with column 0 that is not the document start is immediately
preceded by a separator. -/
theorem sep_before_of_posInBlock_zero {t : List Char} {e : Nat}
    (he1 : 1 ≤ e) (he : e ≤ t.length) (h : posInBlock t e = 0) :
    t.take e = t.take (e - 1) ++ [sep] ∧ t.drop (e - 1) = sep :: t.drop e := by
  have hlen : (t.take e).length = e := List.length_take_of_le he
  have htw : (t.take e).reverse.takeWhile notSep = [] := by
    rw [posInBlock_eq] at h
    exact List.length_eq_zero.1 h
  obtain ⟨c, r', hrev⟩ : ∃ c r', (t.take e).reverse = c :: r' := by
    cases hr : (t.take e).reverse with
    | nil =>
      have : (t.take e).length = 0 := by
        rw [← List.length_reverse, hr]; rfl
      omega
    | cons c r' => exact ⟨c, r', rfl⟩
  have hcsep : c = sep := by
    rw [hrev] at htw
    by_cases hns : notSep c
    · rw [List.takeWhile_cons_of_pos hns] at htw
      exact absurd htw (by simp)
    · simpa [notSep] using hns
  subst hcsep
  have htk : t.take e = r'.reverse ++ [sep] := by
    have h1 := congrArg List.reverse hrev
    rw [List.reverse_reverse] at h1
    simpa using h1
  have hr'len : r'.reverse.length = e - 1 := by
    have h1 := congrArg List.length htk
    simp only [List.length_append, List.length_singleton] at h1
    omega
  have htk1 : t.take (e - 1) = r'.reverse := by
    have h1 : t.take (e - 1) = (t.take e).take (e - 1) := by
      rw [List.take_take, min_eq_left (by omega)]
    rw [h1, htk, List.take_left' hr'len]
  constructor
  · rw [htk1, htk]
  · have ht2 : t = t.take (e - 1) ++ (sep :: t.drop e) := by
      conv_lhs => rw [← List.take_append_drop e t]
      rw [htk, htk1]
      simp
    conv_lhs => rw [ht2]
    rw [List.drop_left' (by rw [List.length_take_of_le (by omega)])]

/-! ### Claim C7 (specification of enlarge_selection) -/

/-- C7: `enlarge_selection` is total over valid selections and expands them
to whole-line bounds: the result is an ordered in-range pair; a caret
becomes the full line containing it (its extracted text is exactly the
block text, without the trailing terminator); for `start ≠ end` the start
moves to the start of its line, and an end at column 0 of some line is
retracted to the previous line's end (one position before, which is an end
of line on the preceding line); otherwise the end moves to the end of its
line.  The Python return value is the difference of the two components. -/
theorem C7_enlarge_selection_spec (t : List Char) (s e : Nat)
    (hse : s ≤ e) (he : e ≤ t.length) :
    (enlarge_selection t s e).1 ≤ (enlarge_selection t s e).2 ∧
    (enlarge_selection t s e).2 ≤ t.length ∧
    (s = e →
      enlarge_selection t s e = (startOfBlock t s, endOfBlock t s) ∧
      slice t (enlarge_selection t s e).1 (enlarge_selection t s e).2
        = blockText t s) ∧
    (s ≠ e →
      (enlarge_selection t s e).1 = startOfBlock t s ∧
      (posInBlock t e = 0 →
        (enlarge_selection t s e).2 + 1 = e ∧
        endOfBlock t (enlarge_selection t s e).2
          = (enlarge_selection t s e).2 ∧
        blockNumber t (enlarge_selection t s e).2 + 1 = blockNumber t e) ∧
      (posInBlock t e ≠ 0 →
        (enlarge_selection t s e).2 = endOfBlock t e)) := by
  obtain ⟨hb1, hb2, hb3⟩ := enlarge_selection_bounds hse he
  refine ⟨hb2, hb3, ?_, ?_⟩
  · intro hcar
    subst hcar
    have henl : enlarge_selection t s s = (startOfBlock t s, endOfBlock t s) := by
      unfold enlarge_selection
      rw [if_pos rfl]
    refine ⟨henl, ?_⟩
    obtain ⟨A, L, B, ht, hA, hL, hB, hsob, hpib, hpeq, hbt, heob⟩ :=
      line_decomp t s he
    have hdropA : t.drop A.length = L ++ B := by
      conv_lhs => rw [ht]
      exact List.drop_left' rfl
    rw [henl, hsob, heob, hbt, slice, hdropA, Nat.add_sub_cancel_left,
      List.take_left]
  · intro hne
    have henl : enlarge_selection t s e = (startOfBlock t s,
        if posInBlock t e = 0 then e - 1 else endOfBlock t e) := by
      unfold enlarge_selection
      rw [if_neg hne]
    refine ⟨by rw [henl], ?_, ?_⟩
    · intro hcol
      have he1 : 1 ≤ e := by
        have := lt_of_le_of_ne hse hne
        omega
      obtain ⟨htke, hdpe⟩ := sep_before_of_posInBlock_zero he1 he hcol
      have hb : (enlarge_selection t s e).2 = e - 1 := by
        rw [henl]
        simp [hcol]
      refine ⟨by rw [hb]; omega, ?_, ?_⟩
      · rw [hb]
        unfold endOfBlock
        rw [hdpe, List.takeWhile_cons_of_neg (by simp [notSep])]
        simp
      · rw [hb]
        unfold blockNumber
        rw [htke, List.count_append]
        simp
    · intro hcol
      rw [henl]
      simp [hcol]

theorem C7_enlarge_selection_spec_witness :
    (0 : Nat) ≤ 3 ∧ (3 : Nat) ≤ (['a', 'b', sep, 'c'] : List Char).length ∧
    ((enlarge_selection (['a', 'b', sep, 'c']) 0 3).1
        ≤ (enlarge_selection (['a', 'b', sep, 'c']) 0 3).2 ∧
      (enlarge_selection (['a', 'b', sep, 'c']) 0 3).2
        ≤ (['a', 'b', sep, 'c'] : List Char).length ∧
      ((0 : Nat) = 3 →
        enlarge_selection (['a', 'b', sep, 'c']) 0 3
          = (startOfBlock (['a', 'b', sep, 'c']) 0,
              endOfBlock (['a', 'b', sep, 'c']) 0) ∧
        slice (['a', 'b', sep, 'c'])
            (enlarge_selection (['a', 'b', sep, 'c']) 0 3).1
            (enlarge_selection (['a', 'b', sep, 'c']) 0 3).2
          = blockText (['a', 'b', sep, 'c']) 0) ∧
      ((0 : Nat) ≠ 3 →
        (enlarge_selection (['a', 'b', sep, 'c']) 0 3).1
          = startOfBlock (['a', 'b', sep, 'c']) 0 ∧
        (posInBlock (['a', 'b', sep, 'c']) 3 = 0 →
          (enlarge_selection (['a', 'b', sep, 'c']) 0 3).2 + 1 = 3 ∧
          endOfBlock (['a', 'b', sep, 'c'])
              (enlarge_selection (['a', 'b', sep, 'c']) 0 3).2
            = (enlarge_selection (['a', 'b', sep, 'c']) 0 3).2 ∧
          blockNumber (['a', 'b', sep, 'c'])
              (enlarge_selection (['a', 'b', sep, 'c']) 0 3).2 + 1
            = blockNumber (['a', 'b', sep, 'c']) 3) ∧
        (posInBlock (['a', 'b', sep, 'c']) 3 ≠ 0 →
          (enlarge_selection (['a', 'b', sep, 'c']) 0 3).2
            = endOfBlock (['a', 'b', sep, 'c']) 3))) :=
  ⟨by decide, by decide,
    C7_enlarge_selection_spec (['a', 'b', sep, 'c']) 0 3 (by decide) (by decide)⟩

/-! ### Claim C2 (round-trip of the single-line comment toggle) -/

/-- C2 is false as stated: for the single-line document `" a"` (which does
not start with `#`), toggling inserts only `#` (because the line starts
with a space), producing `"# a"`; toggling again sees the `"# "` prefix and
removes two characters, producing `"a"`: the leading space is lost. -/
theorem C2_counterexample :
    ([' ', 'a'] : List Char).head? ≠ some '#' ∧
    comment_toggle ([' ', 'a']) 0 0 = ['#', ' ', 'a'] ∧
    comment_toggle (comment_toggle ([' ', 'a']) 0 0) 1 1 = ['a'] ∧
    comment_toggle (comment_toggle ([' ', 'a']) 0 0) 1 1 ≠ [' ', 'a'] := by
  decide

/-- C2 (amended): for every document and every single line `L` that starts
with neither `#` nor a space, applying `toggle_comment` with a caret on `L`
inserts `# ` at the start of the line, and applying it again with a caret
anywhere on the commented line removes exactly those two characters,
restoring the document character for character.  (For lines starting with
a space the round trip drops the leading space, see the counterexample.) -/
theorem C2_toggle_comment_roundtrip (A L B : List Char) (c c2 : Nat)
    (hA : sepEnds A) (hL : sepFree L) (hB : sepStarts B)
    (hc : c ≤ L.length)
    (hhash : L.head? ≠ some '#') (hspace : L.head? ≠ some ' ')
    (hc2 : c2 ≤ L.length + 2) :
    comment_toggle (A ++ (L ++ B)) (A.length + c) (A.length + c)
        = A ++ (('#' :: ' ' :: L) ++ B) ∧
    comment_toggle (A ++ (('#' :: ' ' :: L) ++ B)) (A.length + c2)
        (A.length + c2)
      = A ++ (L ++ B) := by
  have hbt1 : blockText (A ++ (L ++ B)) (A.length + c) = L :=
    blockText_decomp hA hB hL hc
  have hsob1 : startOfBlock (A ++ (L ++ B)) (A.length + c) = A.length :=
    startOfBlock_decomp hA hL hc
  have hL2 : sepFree ('#' :: ' ' :: L) := by
    intro x hx
    rcases List.mem_cons.1 hx with h | hx2
    · subst h; decide
    rcases List.mem_cons.1 hx2 with h | hx3
    · subst h; decide
    · exact hL x hx3
  have hc2' : c2 ≤ ('#' :: ' ' :: L).length := by
    simp only [List.length_cons]
    omega
  have hbt2 : blockText (A ++ (('#' :: ' ' :: L) ++ B)) (A.length + c2)
      = '#' :: ' ' :: L := blockText_decomp hA hB hL2 hc2'
  have hsob2 : startOfBlock (A ++ (('#' :: ' ' :: L) ++ B)) (A.length + c2)
      = A.length := startOfBlock_decomp hA hL2 hc2'
  constructor
  · have hdisp : comment_toggle (A ++ (L ++ B)) (A.length + c) (A.length + c)
        = toggle_line_comment (A ++ (L ++ B)) (A.length + c) := by
      unfold comment_toggle
      rw [if_neg (by simp)]
    rw [hdisp]
    unfold toggle_line_comment
    rw [hbt1, if_neg hhash]
    have hcl : (comment_line (A ++ (L ++ B)) (A.length + c)).1
        = insertAt (A ++ (L ++ B)) A.length ['#', ' '] := by
      simp only [comment_line, hbt1, hsob1, if_neg hspace]
    rw [hcl]
    unfold insertAt
    rw [List.take_left, List.drop_left]
    simp
  · have hdisp : comment_toggle (A ++ (('#' :: ' ' :: L) ++ B))
        (A.length + c2) (A.length + c2)
        = toggle_line_comment (A ++ (('#' :: ' ' :: L) ++ B))
            (A.length + c2) := by
      unfold comment_toggle
      rw [if_neg (by simp)]
    rw [hdisp]
    unfold toggle_line_comment
    rw [hbt2, if_pos (show ('#' :: ' ' :: L).head? = some '#' from rfl)]
    have hlen2 : A.length + 2 ≤ (A ++ (('#' :: ' ' :: L) ++ B)).length := by
      simp only [List.length_append, List.length_cons]
      omega
    have hrc : (remove_comment (A ++ (('#' :: ' ' :: L) ++ B))
        (A.length + c2)).1
        = removeRange (A ++ (('#' :: ' ' :: L) ++ B)) A.length
            (A.length + 2) := by
      simp only [remove_comment, hbt2, hsob2, List.take_succ_cons,
        List.take_zero, if_pos rfl, if_true, min_eq_left hlen2]
    rw [hrc]
    unfold removeRange
    rw [List.take_left,
      drop_decomp (A := A) (L := '#' :: ' ' :: L) (B := B)
        (by simp : (2 : Nat) ≤ ('#' :: ' ' :: L).length)]
    rfl

theorem C2_toggle_comment_roundtrip_witness :
    sepEnds ([] : List Char) ∧ sepFree ['a', 'b'] ∧
    sepStarts ([] : List Char) ∧ (0 : Nat) ≤ (['a', 'b'] : List Char).length ∧
    (['a', 'b'] : List Char).head? ≠ some '#' ∧
    (['a', 'b'] : List Char).head? ≠ some ' ' ∧
    (3 : Nat) ≤ (['a', 'b'] : List Char).length + 2 ∧
    (comment_toggle ([] ++ (['a', 'b'] ++ []))
        ((List.length ([] : List Char)) + 0) ((List.length ([] : List Char)) + 0)
        = [] ++ (('#' :: ' ' :: ['a', 'b']) ++ []) ∧
      comment_toggle ([] ++ (('#' :: ' ' :: ['a', 'b']) ++ []))
          ((List.length ([] : List Char)) + 3) ((List.length ([] : List Char)) + 3)
        = [] ++ (['a', 'b'] ++ [])) :=
  ⟨by decide, by decide, by decide, by decide, by decide, by decide, by decide,
    C2_toggle_comment_roundtrip [] ['a', 'b'] [] 0 3
      (by decide) (by decide) (by decide) (by decide) (by decide) (by decide)
      (by decide)⟩

/-! ### Claim C6 (block comment toggle on a multi-line selection) -/

theorem length_mapRange (i j : Nat) (f : List Char → List Char) :
    ∀ (k : Nat) (ls : List (List Char)),
      (mapRange i j f k ls).length = ls.length := by
  intro k ls
  induction ls generalizing k with
  | nil => rfl
  | cons l ls ih => simp [mapRange, ih]

theorem mem_mapRange {i j : Nat} {f : List Char → List Char} :
    ∀ {k : Nat} {ls : List (List Char)} {x : List Char},
      x ∈ mapRange i j f k ls → x ∈ ls ∨ ∃ l ∈ ls, x = f l := by
  intro k ls
  induction ls generalizing k with
  | nil => intro x hx; simp [mapRange] at hx
  | cons l ls ih =>
    intro x hx
    simp only [mapRange, List.mem_cons] at hx
    rcases hx with hx | hx
    · split at hx
      · exact Or.inr ⟨l, by simp, hx⟩
      · exact Or.inl (by simp [hx])
    · rcases ih hx with h | ⟨l', hl', hx'⟩
      · exact Or.inl (by simp [h])
      · exact Or.inr ⟨l', by simp [hl'], hx'⟩

theorem sepFree_comment_str {l : List Char} (h : sepFree l) :
    sepFree (comment_str l) := by
  unfold comment_str
  split <;> intro x hx
  · rcases List.mem_cons.1 hx with h1 | h1
    · subst h1; decide
    · exact h x h1
  · rcases List.mem_cons.1 hx with h1 | h1
    · subst h1; decide
    rcases List.mem_cons.1 h1 with h2 | h2
    · subst h2; decide
    · exact h x h2

/-- C6: for every selection spanning more than one line, `toggle_comment`
uses block semantics: the block is classified all-commented iff every line
in the range from the line of the selection start to the line of the
selection end (blank lines included) starts with `#`; when the block is not
all-commented the marker is inserted into every line of the range, so a
mixed block is resolved by commenting all lines.  In particular for the
document `"# a‚b‚# c"` with all three lines selected, the result is
`"# # a‚# b‚# # c"`. -/
theorem C6_toggle_block_comment_spec (t : List Char) (anchor pos : Nat)
    (hml : blockNumber t (min anchor pos) ≠ blockNumber t (max anchor pos)) :
    ((((linesOf t).drop (blockNumber t (min anchor pos))).take
          (blockNumber t (max anchor pos) + 1
            - blockNumber t (min anchor pos))).all startsWithHash = true ↔
      ∀ l ∈ ((linesOf t).drop (blockNumber t (min anchor pos))).take
          (blockNumber t (max anchor pos) + 1
            - blockNumber t (min anchor pos)), l.head? = some '#') ∧
    ((((linesOf t).drop (blockNumber t (min anchor pos))).take
          (blockNumber t (max anchor pos) + 1
            - blockNumber t (min anchor pos))).all startsWithHash = false →
      linesOf (comment_toggle t anchor pos)
        = mapRange (blockNumber t (min anchor pos))
            (blockNumber t (max anchor pos)) comment_str 0 (linesOf t)) ∧
    comment_toggle (['#', ' ', 'a', sep, 'b', sep, '#', ' ', 'c']) 0 9
      = ['#', ' ', '#', ' ', 'a', sep, '#', ' ', 'b', sep,
          '#', ' ', '#', ' ', 'c'] := by
  refine ⟨?_, ?_, by decide⟩
  · rw [List.all_eq_true]
    constructor
    · intro h l hl
      simpa [startsWithHash] using h l hl
    · intro h l hl
      simpa [startsWithHash] using h l hl
  · intro hnall
    have hap : anchor ≠ pos := by
      intro h
      subst h
      simp at hml
    have hdisp : comment_toggle t anchor pos
        = toggle_block_comment t (min anchor pos) (max anchor pos) := by
      unfold comment_toggle
      rw [if_pos ⟨hap, hml⟩]
    rw [hdisp]
    simp only [toggle_block_comment]
    rw [hnall]
    simp only [Bool.false_eq_true, if_false]
    apply linesOf_joinLines
    · intro l hl
      rcases mem_mapRange hl with h | ⟨l', hl', hx⟩
      · exact sepFree_of_mem_linesOf h
      · exact hx ▸ sepFree_comment_str (sepFree_of_mem_linesOf hl')
    · intro hnil
      have hlen := length_mapRange (blockNumber t (min anchor pos))
        (blockNumber t (max anchor pos)) comment_str 0 (linesOf t)
      rw [hnil] at hlen
      exact linesOf_ne_nil t (List.length_eq_zero.1 hlen.symm)

theorem C6_toggle_block_comment_spec_witness :
    blockNumber (['#', ' ', 'a', sep, 'b', sep, '#', ' ', 'c'] : List Char)
        (min 0 9)
      ≠ blockNumber (['#', ' ', 'a', sep, 'b', sep, '#', ' ', 'c'] : List Char)
        (max 0 9) ∧
    ((((linesOf (['#', ' ', 'a', sep, 'b', sep, '#', ' ', 'c'] :
            List Char)).drop
          (blockNumber (['#', ' ', 'a', sep, 'b', sep, '#', ' ', 'c'] :
            List Char) (min 0 9))).take
        (blockNumber (['#', ' ', 'a', sep, 'b', sep, '#', ' ', 'c'] :
            List Char) (max 0 9) + 1
          - blockNumber (['#', ' ', 'a', sep, 'b', sep, '#', ' ', 'c'] :
            List Char) (min 0 9))).all startsWithHash = false →
      linesOf (comment_toggle
          (['#', ' ', 'a', sep, 'b', sep, '#', ' ', 'c']) 0 9)
        = mapRange
            (blockNumber (['#', ' ', 'a', sep, 'b', sep, '#', ' ', 'c'] :
              List Char) (min 0 9))
            (blockNumber (['#', ' ', 'a', sep, 'b', sep, '#', ' ', 'c'] :
              List Char) (max 0 9)) comment_str 0
            (linesOf (['#', ' ', 'a', sep, 'b', sep, '#', ' ', 'c'] :
              List Char))) :=
  ⟨by decide,
    (C6_toggle_block_comment_spec
      (['#', ' ', 'a', sep, 'b', sep, '#', ' ', 'c']) 0 9 (by decide)).2.1⟩

/-! ### Swapping adjacent line blocks permutes the lines -/

theorem linesOf_sepEnds_append {P : List Char} (hP : sepEnds P) (hne : P ≠ [])
    (Q : List Char) : linesOf (P ++ Q) = linesOf P.dropLast ++ linesOf Q := by
  conv_lhs => rw [sepEnds_eq_dropLast hP hne]
  rw [List.append_assoc, List.singleton_append, linesOf_append_sep]

theorem linesOf_append_sepStarts {R : List Char} (hR : sepStarts R)
    (hne : R ≠ []) (X : List Char) :
    linesOf (X ++ R) = linesOf X ++ linesOf R.tail := by
  cases R with
  | nil => exact absurd rfl hne
  | cons r R' =>
    rcases hR with h | h
    · exact absurd h (by simp)
    · simp only [List.head?_cons, Option.some.injEq] at h
      subst h
      rw [linesOf_append_sep]
      rfl

theorem linesOf_swap_perm (P X Y R : List Char) (hP : sepEnds P)
    (hR : sepStarts R) :
    (linesOf (P ++ (Y ++ sep :: (X ++ R)))).Perm
      (linesOf (P ++ (X ++ sep :: (Y ++ R)))) := by
  obtain ⟨lP, hlP⟩ : ∃ lP, ∀ Q : List Char,
      linesOf (P ++ Q) = lP ++ linesOf Q := by
    rcases eq_or_ne P [] with h | h
    · exact ⟨[], fun Q => by simp [h]⟩
    · exact ⟨linesOf P.dropLast, fun Q => linesOf_sepEnds_append hP h Q⟩
  obtain ⟨lR, hlR⟩ : ∃ lR, ∀ Z : List Char,
      linesOf (Z ++ R) = linesOf Z ++ lR := by
    rcases eq_or_ne R [] with h | h
    · exact ⟨[], fun Z => by simp [h]⟩
    · exact ⟨linesOf R.tail, fun Z => linesOf_append_sepStarts hR h Z⟩
  rw [hlP, hlP, linesOf_append_sep, linesOf_append_sep, hlR, hlR]
  apply List.Perm.append_left
  rw [← List.append_assoc, ← List.append_assoc]
  exact List.perm_append_comm.append_right lR

/-! ### Block primitives on a document of the form `P ++ (L1 ++ sep :: (L2 ++ R))` -/

theorem seg1_facts (P L1 L2 R : List Char) (c' : Nat)
    (hP : sepEnds P) (hL1 : sepFree L1) (hc : c' ≤ L1.length) :
    blockText (P ++ (L1 ++ sep :: (L2 ++ R))) (P.length + c') = L1 ∧
    startOfBlock (P ++ (L1 ++ sep :: (L2 ++ R))) (P.length + c') = P.length ∧
    posInBlock (P ++ (L1 ++ sep :: (L2 ++ R))) (P.length + c') = c' ∧
    endOfBlock (P ++ (L1 ++ sep :: (L2 ++ R))) (P.length + c')
      = P.length + L1.length := by
  have hB : sepStarts (sep :: (L2 ++ R)) := Or.inr rfl
  exact ⟨blockText_decomp hP hB hL1 hc, startOfBlock_decomp hP hL1 hc,
    posInBlock_decomp hP hL1 hc, endOfBlock_decomp hB hL1 hc⟩

theorem seg2_facts (P L1 L2 R : List Char) (c : Nat)
    (hP : sepEnds P) (hL1 : sepFree L1) (hL2 : sepFree L2) (hR : sepStarts R)
    (hc : c ≤ L2.length) :
    blockText (P ++ (L1 ++ sep :: (L2 ++ R))) (P.length + L1.length + 1 + c)
      = L2 ∧
    startOfBlock (P ++ (L1 ++ sep :: (L2 ++ R))) (P.length + L1.length + 1 + c)
      = P.length + L1.length + 1 ∧
    posInBlock (P ++ (L1 ++ sep :: (L2 ++ R))) (P.length + L1.length + 1 + c)
      = c ∧
    endOfBlock (P ++ (L1 ++ sep :: (L2 ++ R))) (P.length + L1.length + 1 + c)
      = P.length + L1.length + 1 + L2.length := by
  have hA : sepEnds (P ++ (L1 ++ [sep])) :=
    sepEnds_of_append (sepEnds_append_sep L1) (by simp)
  have ht : P ++ (L1 ++ sep :: (L2 ++ R))
      = (P ++ (L1 ++ [sep])) ++ (L2 ++ R) := by simp
  have hpos : P.length + L1.length + 1 + c
      = (P ++ (L1 ++ [sep])).length + c := by
    simp only [List.length_append, List.length_singleton]
    omega
  have hlenA : (P ++ (L1 ++ [sep])).length = P.length + L1.length + 1 := by
    simp only [List.length_append, List.length_singleton]
    omega
  refine ⟨?_, ?_, ?_, ?_⟩
  · rw [ht, hpos]
    exact blockText_decomp hA hR hL2 hc
  · rw [ht, hpos, startOfBlock_decomp hA hL2 hc, hlenA]
  · rw [ht, hpos]
    exact posInBlock_decomp hA hL2 hc
  · rw [ht, hpos, endOfBlock_decomp hR hL2 hc, hlenA]

theorem cursorUp_seg2 (P L1 L2 R : List Char) (c : Nat)
    (hP : sepEnds P) (hL1 : sepFree L1) (hL2 : sepFree L2) (hR : sepStarts R)
    (hc : c ≤ L2.length) :
    cursorUp (P ++ (L1 ++ sep :: (L2 ++ R))) (P.length + L1.length + 1 + c)
      = P.length + min c L1.length := by
  obtain ⟨_, hsob, hpib, _⟩ := seg2_facts P L1 L2 R c hP hL1 hL2 hR hc
  obtain ⟨_, hsobB, _, _⟩ :=
    seg1_facts P L1 L2 R L1.length hP hL1 (le_refl _)
  have hdropP : (P ++ (L1 ++ sep :: (L2 ++ R))).drop P.length
      = L1 ++ sep :: (L2 ++ R) := List.drop_left ..
  simp only [cursorUp, hsob, hpib]
  rw [if_neg (by omega : ¬ P.length + L1.length + 1 = 0),
    show P.length + L1.length + 1 - 1 = P.length + L1.length from by omega,
    hsobB, hdropP, takeWhile_notSep_append hL1,
    takeWhile_notSep_sepStarts (l := sep :: (L2 ++ R)) (Or.inr rfl),
    List.append_nil]

theorem cursorDown_seg1 (P L1 L2 R : List Char) (c' : Nat)
    (hP : sepEnds P) (hL1 : sepFree L1) (hL2 : sepFree L2) (hR : sepStarts R)
    (hc : c' ≤ L1.length) :
    cursorDown (P ++ (L1 ++ sep :: (L2 ++ R))) (P.length + c')
      = P.length + L1.length + 1 + min c' L2.length := by
  obtain ⟨_, _, hpib, heob⟩ := seg1_facts P L1 L2 R c' hP hL1 hc
  have hlen : (P ++ (L1 ++ sep :: (L2 ++ R))).length
      = P.length + L1.length + 1 + L2.length + R.length := by
    simp only [List.length_append, List.length_cons]
    omega
  have hdropN : (P ++ (L1 ++ sep :: (L2 ++ R))).drop (P.length + L1.length + 1)
      = L2 ++ R := by
    have ht : P ++ (L1 ++ sep :: (L2 ++ R))
        = (P ++ (L1 ++ [sep])) ++ (L2 ++ R) := by simp
    rw [ht]
    exact List.drop_left' (by simp [List.length_append]; omega)
  simp only [cursorDown, heob, hpib]
  rw [if_neg (by omega : ¬ P.length + L1.length
      = (P ++ (L1 ++ sep :: (L2 ++ R))).length), hdropN,
    takeWhile_notSep_append hL2, takeWhile_notSep_sepStarts hR,
    List.append_nil]

theorem drop_after_seg2 (P L1 L2 R : List Char) :
    (P ++ (L1 ++ sep :: (L2 ++ R))).drop
      (P.length + L1.length + 1 + L2.length) = R := by
  have ht : P ++ (L1 ++ sep :: (L2 ++ R)) = ((P ++ (L1 ++ [sep])) ++ L2) ++ R := by
    simp
  rw [ht]
  refine List.drop_left' ?_
  simp only [List.length_append, List.length_singleton]
  omega

/-- Document effect of `move_current_line_up` with the caret at column `c`
of the line `L2`: the two adjacent lines swap and the caret keeps its
column on the moved line, now one line higher. -/
theorem move_current_line_up_swap (P L1 L2 R : List Char) (c : Nat)
    (hP : sepEnds P) (hL1 : sepFree L1) (hL2 : sepFree L2) (hR : sepStarts R)
    (hc : c ≤ L2.length) :
    move_current_line_up (P ++ (L1 ++ sep :: (L2 ++ R)))
        (P.length + L1.length + 1 + c)
      = (P ++ (L2 ++ sep :: (L1 ++ R)), P.length + c) := by
  obtain ⟨hbt2, hsob2, hpib2, heob2⟩ := seg2_facts P L1 L2 R c hP hL1 hL2 hR hc
  obtain ⟨hbt1, hsob1, hpib1, heob1⟩ :=
    seg1_facts P L1 L2 R L1.length hP hL1 (le_refl _)
  have hcup1 := cursorUp_seg2 P L1 L2 R L2.length hP hL1 hL2 hR (le_refl _)
  obtain ⟨_, hsobm, _, _⟩ := seg1_facts P L1 L2 R (min L2.length L1.length)
    hP hL1 (min_le_right _ _)
  have hdropR := drop_after_seg2 P L1 L2 R
  have hcup2 := cursorUp_seg2 P L2 L1 R L1.length hP hL2 hL1 hR (le_refl _)
  obtain ⟨_, _, hpibm', _⟩ := seg1_facts P L2 L1 R (min L1.length L2.length)
    hP hL2 (min_le_right _ _)
  simp only [move_current_line_up, hbt2, hsob2, hpib2, heob2]
  rw [show P.length + L1.length + 1 - 1 = P.length + L1.length from by omega,
    hbt1, hcup1, hsobm, List.take_left, hdropR]
  simp only [List.append_assoc]
  rw [hcup2, hpibm']
  simp only [Prod.mk.injEq]
  refine ⟨by simp, by omega⟩

/-- Document effect of `move_current_line_down` with the caret at column
`c'` of the line `L1`: the two adjacent lines swap and the caret keeps its
column on the moved line, now one line lower. -/
theorem move_current_line_down_swap (P L1 L2 R : List Char) (c' : Nat)
    (hP : sepEnds P) (hL1 : sepFree L1) (hL2 : sepFree L2) (hR : sepStarts R)
    (hc : c' ≤ L1.length) :
    move_current_line_down (P ++ (L1 ++ sep :: (L2 ++ R))) (P.length + c')
      = (P ++ (L2 ++ sep :: (L1 ++ R)), P.length + L2.length + 1 + c') := by
  obtain ⟨hbt1, hsob1, hpib1, heob1⟩ := seg1_facts P L1 L2 R c' hP hL1 hc
  have hbtN := (seg2_facts P L1 L2 R 0 hP hL1 hL2 hR (Nat.zero_le _)).1
  rw [Nat.add_zero] at hbtN
  have heobN := (seg2_facts P L1 L2 R 0 hP hL1 hL2 hR (Nat.zero_le _)).2.2.2
  rw [Nat.add_zero] at heobN
  have hcd := cursorDown_seg1 P L1 L2 R 0 hP hL1 hL2 hR (Nat.zero_le _)
  rw [Nat.add_zero, Nat.zero_min, Nat.add_zero] at hcd
  have hdropR := drop_after_seg2 P L1 L2 R
  obtain ⟨_, _, hpib', _⟩ :=
    seg2_facts P L2 L1 R L1.length hP hL2 hL1 hR (le_refl _)
  simp only [move_current_line_down, hbt1, hsob1, hpib1, heob1]
  rw [hbtN, hcd, heobN, List.take_left, hdropR]
  simp only [List.append_assoc]
  rw [hpib']
  simp only [Prod.mk.injEq]
  refine ⟨by simp, by omega⟩

/-- Document effect of `move_selected_lines_up` when the enlarged selection
covers the whole-line block `Y` whose previous line is `X`: the block moves
above `X`. -/
theorem move_selected_lines_up_swap (P X Y R : List Char) (anchor pos : Nat)
    (hP : sepEnds P) (hX : sepFree X) (hR : sepStarts R)
    (henl : enlarge_selection (P ++ (X ++ sep :: (Y ++ R)))
        (min anchor pos) (max anchor pos)
      = (P.length + X.length + 1, P.length + X.length + 1 + Y.length)) :
    (move_selected_lines_up (P ++ (X ++ sep :: (Y ++ R))) anchor pos).1
      = P ++ (Y ++ sep :: (X ++ R)) := by
  have hnilfree : sepFree ([] : List Char) := fun x hx =>
    absurd hx (List.not_mem_nil x)
  have htA : P ++ (X ++ sep :: (Y ++ R)) = (P ++ (X ++ [sep])) ++ (Y ++ R) := by
    simp
  have htake : (P ++ (X ++ sep :: (Y ++ R))).take (P.length + X.length + 1)
      = P ++ (X ++ [sep]) := by
    rw [htA]
    exact List.take_left'
      (by simp only [List.length_append, List.length_singleton]; omega)
  have hguard : ¬ blockNumber (P ++ (X ++ sep :: (Y ++ R)))
      (P.length + X.length + 1) = 0 := by
    unfold blockNumber
    rw [htake]
    simp only [List.count_append]
    have hone : ([sep] : List Char).count sep = 1 := by simp
    omega
  have hdropa : (P ++ (X ++ sep :: (Y ++ R))).drop (P.length + X.length + 1)
      = Y ++ R := by
    rw [htA]
    exact List.drop_left'
      (by simp only [List.length_append, List.length_singleton]; omega)
  have hslice : slice (P ++ (X ++ sep :: (Y ++ R))) (P.length + X.length + 1)
      (P.length + X.length + 1 + Y.length) = Y := by
    rw [slice, hdropa, Nat.add_sub_cancel_left, List.take_left]
  have hbtprev := (seg1_facts P X Y R X.length hP hX (le_refl _)).1
  have ht1 : removeRange (P ++ (X ++ sep :: (Y ++ R)))
      (P.length + X.length + 1) (P.length + X.length + 1 + Y.length)
      = P ++ (X ++ sep :: R) := by
    unfold removeRange
    have hdropb : (P ++ (X ++ sep :: (Y ++ R))).drop
        (P.length + X.length + 1 + Y.length) = R := by
      have ht' : P ++ (X ++ sep :: (Y ++ R)) = ((P ++ (X ++ [sep])) ++ Y) ++ R := by
        simp
      rw [ht']
      exact List.drop_left'
        (by simp only [List.length_append, List.length_singleton]; omega)
    rw [htake, hdropb]
    simp
  have hsobt1 := (seg2_facts P X [] R 0 hP hX hnilfree hR (Nat.zero_le _)).2.1
  simp only [List.nil_append, Nat.add_zero] at hsobt1
  have hcup := cursorUp_seg2 P X [] R 0 hP hX hnilfree hR (Nat.zero_le _)
  simp only [List.nil_append, Nat.add_zero, Nat.zero_min] at hcup
  have hdrt1 : (P ++ (X ++ sep :: R)).drop (P.length + X.length + 1) = R := by
    have ht' : P ++ (X ++ sep :: R) = (P ++ (X ++ [sep])) ++ R := by simp
    rw [ht']
    exact List.drop_left'
      (by simp only [List.length_append, List.length_singleton]; omega)
  simp only [move_selected_lines_up, henl]
  rw [if_neg hguard, hslice,
    show P.length + X.length + 1 - 1 = P.length + X.length from by omega,
    hbtprev, ht1, hsobt1, hcup, min_eq_right (by omega : P.length ≤ P.length + X.length + 1),
    max_eq_left (by omega : P.length ≤ P.length + X.length + 1),
    List.take_left, hdrt1]
  simp [List.append_assoc]

/-- Document effect of `move_selected_lines_down` when the enlarged
selection covers the whole-line block `Y` whose next line is `X`: the block
moves below `X`. -/
theorem move_selected_lines_down_swap (P X Y R : List Char) (anchor pos : Nat)
    (hP : sepEnds P) (hX : sepFree X) (hR : sepStarts R)
    (henl : enlarge_selection (P ++ (Y ++ sep :: (X ++ R)))
        (min anchor pos) (max anchor pos) = (P.length, P.length + Y.length)) :
    (move_selected_lines_down (P ++ (Y ++ sep :: (X ++ R))) anchor pos).1
      = P ++ (X ++ sep :: (Y ++ R)) := by
  have hnilfree : sepFree ([] : List Char) := fun x hx =>
    absurd hx (List.not_mem_nil x)
  have htB : P ++ (Y ++ sep :: (X ++ R)) = (P ++ Y) ++ (sep :: (X ++ R)) := by
    simp
  have hdropb : (P ++ (Y ++ sep :: (X ++ R))).drop (P.length + Y.length)
      = sep :: (X ++ R) := by
    rw [htB]
    exact List.drop_left' (by simp)
  have heobb : endOfBlock (P ++ (Y ++ sep :: (X ++ R))) (P.length + Y.length)
      = P.length + Y.length := by
    unfold endOfBlock
    rw [hdropb, List.takeWhile_cons_of_neg (by simp [notSep])]
    simp
  have hlent : (P ++ (Y ++ sep :: (X ++ R))).length
      = P.length + Y.length + 1 + X.length + R.length := by
    simp only [List.length_append, List.length_cons]
    omega
  have hguard : ¬ endOfBlock (P ++ (Y ++ sep :: (X ++ R)))
      (P.length + Y.length) = (P ++ (Y ++ sep :: (X ++ R))).length := by
    rw [heobb, hlent]
    omega
  have hA' : sepEnds (P ++ (Y ++ [sep])) :=
    sepEnds_of_append (sepEnds_append_sep Y) (by simp)
  have hbtX : blockText (P ++ (Y ++ sep :: (X ++ R)))
      (P.length + Y.length + 1) = X := by
    have ht2 : P ++ (Y ++ sep :: (X ++ R)) = (P ++ (Y ++ [sep])) ++ (X ++ R) := by
      simp
    have hp2 : P.length + Y.length + 1 = (P ++ (Y ++ [sep])).length + 0 := by
      simp only [List.length_append, List.length_singleton]
      omega
    rw [ht2, hp2]
    exact blockText_decomp hA' hR hX (Nat.zero_le _)
  have hdropP : (P ++ (Y ++ sep :: (X ++ R))).drop P.length
      = Y ++ sep :: (X ++ R) := List.drop_left ..
  have hslice : slice (P ++ (Y ++ sep :: (X ++ R))) P.length
      (P.length + Y.length) = Y := by
    rw [slice, hdropP, Nat.add_sub_cancel_left, List.take_left]
  have ht1 : removeRange (P ++ (Y ++ sep :: (X ++ R))) P.length
      (P.length + Y.length) = P ++ sep :: (X ++ R) := by
    unfold removeRange
    rw [List.take_left, hdropb]
  have hcd := cursorDown_seg1 P [] X R 0 hP hnilfree hX hR (Nat.zero_le _)
  simp only [List.nil_append, List.length_nil, Nat.add_zero, Nat.zero_min] at hcd
  have heobp2 : endOfBlock (P ++ sep :: (X ++ R)) (P.length + 1)
      = P.length + 1 + X.length := by
    have h' : P ++ sep :: (X ++ R) = (P ++ [sep]) ++ (X ++ R) := by simp
    have hp : P.length + 1 = (P ++ [sep]).length + 0 := by simp
    rw [h', hp, endOfBlock_decomp hR hX (Nat.zero_le _)]
    simp
  have hdrt1 : (P ++ sep :: (X ++ R)).drop (P.length + 1 + X.length) = R := by
    have h' : P ++ sep :: (X ++ R) = ((P ++ [sep]) ++ X) ++ R := by simp
    rw [h']
    exact List.drop_left'
      (by simp only [List.length_append, List.length_singleton])
  simp only [move_selected_lines_down, henl]
  rw [if_neg hguard, heobb, hbtX, hslice, ht1, hcd, heobp2,
    min_eq_left (by omega : P.length ≤ P.length + 1 + X.length),
    max_eq_right (by omega : P.length ≤ P.length + 1 + X.length),
    List.take_left, hdrt1]
  simp [List.append_assoc]

/-! ### Claim C8 (moves preserve line count and multiset of lines) -/

theorem lineCount_of_linesOf_perm {u v : List Char}
    (h : (linesOf u).Perm (linesOf v)) : lineCount u = lineCount v := by
  rw [lineCount_eq_length_linesOf, lineCount_eq_length_linesOf]
  exact h.length_eq

/-- C8: every non-boundary move (single line via
`move_current_line_up`/`down`, or a whole-line selection block via
`move_selected_lines_up`/`down`) produces a document with the same line
count and the same multiset of line texts, differing only by swapping the
moved text with the adjacent line; the caret keeps its column on the moved
line.  In particular for `["foo", "bar", "baz"]` with the caret on line 1
at column 1, `move_lines_up` yields `["bar", "foo", "baz"]` with the caret
on "bar", now line 0, at its original column. -/
theorem C8_move_swap_spec
    (P L1 L2 R Pu Xu Yu Ru Pd Xd Yd Rd : List Char)
    (c c' au pu ad pd : Nat)
    (hP : sepEnds P) (hL1 : sepFree L1) (hL2 : sepFree L2) (hR : sepStarts R)
    (hc : c ≤ L2.length) (hc' : c' ≤ L1.length)
    (hPu : sepEnds Pu) (hXu : sepFree Xu) (hRu : sepStarts Ru)
    (henlu : enlarge_selection (Pu ++ (Xu ++ sep :: (Yu ++ Ru)))
        (min au pu) (max au pu)
      = (Pu.length + Xu.length + 1, Pu.length + Xu.length + 1 + Yu.length))
    (hPd : sepEnds Pd) (hXd : sepFree Xd) (hRd : sepStarts Rd)
    (henld : enlarge_selection (Pd ++ (Yd ++ sep :: (Xd ++ Rd)))
        (min ad pd) (max ad pd) = (Pd.length, Pd.length + Yd.length)) :
    (move_current_line_up (P ++ (L1 ++ sep :: (L2 ++ R)))
        (P.length + L1.length + 1 + c)
      = (P ++ (L2 ++ sep :: (L1 ++ R)), P.length + c)) ∧
    (move_current_line_down (P ++ (L1 ++ sep :: (L2 ++ R))) (P.length + c')
      = (P ++ (L2 ++ sep :: (L1 ++ R)), P.length + L2.length + 1 + c')) ∧
    ((linesOf (P ++ (L2 ++ sep :: (L1 ++ R)))).Perm
        (linesOf (P ++ (L1 ++ sep :: (L2 ++ R)))) ∧
      lineCount (P ++ (L2 ++ sep :: (L1 ++ R)))
        = lineCount (P ++ (L1 ++ sep :: (L2 ++ R)))) ∧
    ((move_selected_lines_up (Pu ++ (Xu ++ sep :: (Yu ++ Ru))) au pu).1
        = Pu ++ (Yu ++ sep :: (Xu ++ Ru)) ∧
      (linesOf ((move_selected_lines_up (Pu ++ (Xu ++ sep :: (Yu ++ Ru)))
          au pu).1)).Perm (linesOf (Pu ++ (Xu ++ sep :: (Yu ++ Ru)))) ∧
      lineCount ((move_selected_lines_up (Pu ++ (Xu ++ sep :: (Yu ++ Ru)))
          au pu).1) = lineCount (Pu ++ (Xu ++ sep :: (Yu ++ Ru)))) ∧
    ((move_selected_lines_down (Pd ++ (Yd ++ sep :: (Xd ++ Rd))) ad pd).1
        = Pd ++ (Xd ++ sep :: (Yd ++ Rd)) ∧
      (linesOf ((move_selected_lines_down (Pd ++ (Yd ++ sep :: (Xd ++ Rd)))
          ad pd).1)).Perm (linesOf (Pd ++ (Yd ++ sep :: (Xd ++ Rd)))) ∧
      lineCount ((move_selected_lines_down (Pd ++ (Yd ++ sep :: (Xd ++ Rd)))
          ad pd).1) = lineCount (Pd ++ (Yd ++ sep :: (Xd ++ Rd)))) ∧
    move_lines_up (['f', 'o', 'o', sep, 'b', 'a', 'r', sep, 'b', 'a', 'z']) 5 5
      = (['b', 'a', 'r', sep, 'f', 'o', 'o', sep, 'b', 'a', 'z'], (1, 1)) := by
  have h1 := move_current_line_up_swap P L1 L2 R c hP hL1 hL2 hR hc
  have h2 := move_current_line_down_swap P L1 L2 R c' hP hL1 hL2 hR hc'
  have h3 := linesOf_swap_perm P L1 L2 R hP hR
  have h4 := move_selected_lines_up_swap Pu Xu Yu Ru au pu hPu hXu hRu henlu
  have h4p := linesOf_swap_perm Pu Xu Yu Ru hPu hRu
  have h5 := move_selected_lines_down_swap Pd Xd Yd Rd ad pd hPd hXd hRd henld
  have h5p := linesOf_swap_perm Pd Yd Xd Rd hPd hRd
  refine ⟨h1, h2, ⟨h3, lineCount_of_linesOf_perm h3⟩,
    ⟨h4, ?_, ?_⟩, ⟨h5, ?_, ?_⟩, by decide⟩
  · rw [h4]; exact h4p
  · rw [h4]; exact lineCount_of_linesOf_perm h4p
  · rw [h5]; exact h5p
  · rw [h5]; exact lineCount_of_linesOf_perm h5p

theorem C8_move_swap_spec_witness :
    sepEnds ([] : List Char) ∧ sepFree ['a'] ∧ sepFree ['b'] ∧
    sepStarts ([] : List Char) ∧ (0 : Nat) ≤ 1 ∧
    enlarge_selection ([] ++ (['a'] ++ sep :: (['b'] ++ []))) (min 2 3) (max 2 3)
      = ((List.length ([] : List Char)) + 1 + 1,
          (List.length ([] : List Char)) + 1 + 1 + 1) ∧
    enlarge_selection ([] ++ (['a'] ++ sep :: (['b'] ++ []))) (min 0 1) (max 0 1)
      = ((List.length ([] : List Char)), (List.length ([] : List Char)) + 1) ∧
    move_current_line_up ([] ++ (['a'] ++ sep :: (['b'] ++ [])))
        ((List.length ([] : List Char)) + (List.length ['a']) + 1 + 0)
      = ([] ++ (['b'] ++ sep :: (['a'] ++ [])), (List.length ([] : List Char)) + 0) :=
  ⟨by decide, by decide, by decide, by decide, by decide, by decide, by decide,
    (C8_move_swap_spec [] ['a'] ['b'] [] [] ['a'] ['b'] [] [] ['b'] ['a'] []
      0 0 2 3 0 1 (by decide) (by decide) (by decide) (by decide) (by decide)
      (by decide) (by decide) (by decide) (by decide) (by decide) (by decide)
      (by decide) (by decide) (by decide)).1⟩

/-! ### Claim C4 (duplicate down, then remove) -/

theorem sepEnds_append_cases {A B : List Char} (hA : sepEnds A)
    (hB : sepEnds B) : sepEnds (A ++ B) := by
  rcases eq_or_ne B [] with h | h
  · subst h
    simpa using hA
  · exact sepEnds_of_append hB h

/-- Split an arbitrary text at the start of its last line. -/
theorem split_last (T : List Char) :
    ∃ T1 L', T = T1 ++ L' ∧ sepFree L' ∧ sepEnds T1 ∧
      (T.getLast? ≠ some sep → T ≠ [] → L' ≠ []) := by
  refine ⟨(T.reverse.dropWhile notSep).reverse,
    (T.reverse.takeWhile notSep).reverse, ?_, ?_, ?_, ?_⟩
  · conv_rhs => rw [← List.reverse_append, List.takeWhile_append_dropWhile,
      List.reverse_reverse]
  · intro c hc
    have := List.mem_takeWhile_imp (List.mem_reverse.1 hc)
    simpa [notSep] using this
  · cases hd : T.reverse.dropWhile notSep with
    | nil => exact Or.inl (by simp)
    | cons d ds =>
      have hds : d = sep := by simpa [notSep] using dropWhile_head_not hd
      exact Or.inr (by simp [hds])
  · intro hne hTne
    cases hr : T.reverse with
    | nil =>
      have : T = [] := by simpa using congrArg List.reverse hr
      exact absurd this hTne
    | cons c r' =>
      have hgl : T.getLast? = some c := by
        rw [← List.head?_reverse, hr]
        rfl
      have hc : c ≠ sep := by
        intro h
        exact hne (h ▸ hgl)
      intro hL'
      rw [List.takeWhile_cons_of_pos (by simpa [notSep] using hc)] at hL'
      simp at hL'

/-- C4 is false as stated: for the document `"x"` with the caret at the
end of the single line, `duplicate_lines_down` yields `"x‚x"` with the
lower copy selected; `remove_lines` then removes only the enlarged span of
that selection, leaving `"x‚"` with 2 lines, not the original 1. -/
theorem C4_counterexample :
    ¬ isNoopSelText (slice (['x'])
      (enlarge_selection (['x']) 1 1).1 (enlarge_selection (['x']) 1 1).2) ∧
    lineCount (['x'] : List Char) = 1 ∧
    (remove_lines (duplicate_lines_down (['x']) 1 1).1
        (duplicate_lines_down (['x']) 1 1).2.1
        (duplicate_lines_down (['x']) 1 1).2.2).1 = ['x', sep] ∧
    lineCount (remove_lines (duplicate_lines_down (['x']) 1 1).1
        (duplicate_lines_down (['x']) 1 1).2.1
        (duplicate_lines_down (['x']) 1 1).2.2).1 = 2 := by
  decide

/-- C4 (amended): whenever `duplicate_lines_down` is not a no-op, applying
`remove_lines` to its result yields a document with exactly one line more
than the original: the removal deletes the duplicated text but not the
separator inserted between the copies, so an empty line remains where the
copy stood. -/
theorem C4_duplicate_then_remove_line_count (P T R : List Char)
    (anchor pos : Nat) (hP : sepEnds P) (hR : sepStarts R)
    (henl : enlarge_selection (P ++ (T ++ R)) (min anchor pos) (max anchor pos)
      = (P.length, P.length + T.length))
    (hnoop : ¬ isNoopSelText T)
    (hTR : T.getLast? = some sep → R ≠ []) :
    lineCount (remove_lines (duplicate_lines_down (P ++ (T ++ R)) anchor pos).1
        (duplicate_lines_down (P ++ (T ++ R)) anchor pos).2.1
        (duplicate_lines_down (P ++ (T ++ R)) anchor pos).2.2).1
      = lineCount (P ++ (T ++ R)) + 1 := by
  have hTne : T ≠ [] := fun h => hnoop (Or.inl h)
  have hTlen : 1 ≤ T.length := by
    cases T
    · exact absurd rfl hTne
    · simp
  have hdropP : (P ++ (T ++ R)).drop P.length = T ++ R := List.drop_left ..
  have hslice : slice (P ++ (T ++ R)) P.length (P.length + T.length) = T := by
    rw [slice, hdropP, Nat.add_sub_cancel_left, List.take_left]
  have hdropPT : (P ++ (T ++ R)).drop (P.length + T.length) = R := by
    have h' : P ++ (T ++ R) = (P ++ T) ++ R := by simp
    rw [h']
    exact List.drop_left' (by simp)
  have hA0 : sepEnds (P ++ (T ++ [sep])) :=
    sepEnds_of_append (sepEnds_append_sep T) (by simp)
  have htake1 : (P ++ (T ++ sep :: (T ++ R))).take (P.length + T.length + 1)
      = P ++ (T ++ [sep]) := by
    have h' : P ++ (T ++ sep :: (T ++ R)) = (P ++ (T ++ [sep])) ++ (T ++ R) := by
      simp
    rw [h']
    exact List.take_left'
      (by simp only [List.length_append, List.length_singleton]; omega)
  have hsobs2 : startOfBlock (P ++ (T ++ sep :: (T ++ R)))
      (P.length + T.length + 1) = P.length + T.length + 1 := by
    have h' : P ++ (T ++ sep :: (T ++ R))
        = (P ++ (T ++ [sep])) ++ ([] ++ (T ++ R)) := by simp
    have hp' : P.length + T.length + 1 = (P ++ (T ++ [sep])).length + 0 := by
      simp only [List.length_append, List.length_singleton]
      omega
    rw [h', hp', startOfBlock_decomp hA0
      (fun x hx => absurd hx (List.not_mem_nil x)) (Nat.zero_le _)]
    omega
  have hone : ([sep] : List Char).count sep = 1 := by simp
  by_cases hlast : T.getLast? = some sep
  · -- the duplicated text ends with a separator: cursor offset 1
    have hRne : R ≠ [] := hTR hlast
    obtain ⟨R', hReq⟩ : ∃ R', R = sep :: R' := by
      cases R with
      | nil => exact absurd rfl hRne
      | cons r R' =>
        rcases hR with h | h
        · exact absurd h (by simp)
        · simp only [List.head?_cons, Option.some.injEq] at h
          exact ⟨R', by rw [h]⟩
    subst hReq
    have hdup : duplicate_lines_down (P ++ (T ++ sep :: R')) anchor pos
        = (P ++ (T ++ sep :: (T ++ sep :: R')),
            (P.length + T.length + 1, P.length + T.length + 1 + T.length + 1)) := by
      simp only [duplicate_lines_down, henl, hslice, if_neg hnoop, if_pos hlast]
      rw [List.take_left, hdropPT]
      simp only [Prod.mk.injEq]
      refine ⟨by simp, by omega, by trivial⟩
    simp only [hdup]
    have hne2 : P.length + T.length + 1
        ≠ P.length + T.length + 1 + T.length + 1 := by omega
    have hmin2 : min (P.length + T.length + 1)
        (P.length + T.length + 1 + T.length + 1) = P.length + T.length + 1 :=
      min_eq_left (by omega)
    have hmax2 : max (P.length + T.length + 1)
        (P.length + T.length + 1 + T.length + 1)
        = P.length + T.length + 1 + T.length + 1 :=
      max_eq_right (by omega)
    have hAe : sepEnds (((P ++ (T ++ [sep])) ++ T) ++ [sep]) :=
      sepEnds_append_sep _
    have ht1split : P ++ (T ++ sep :: (T ++ sep :: R'))
        = (((P ++ (T ++ [sep])) ++ T) ++ [sep]) ++ ([] ++ R') := by simp
    have hposE : P.length + T.length + 1 + T.length + 1
        = ((((P ++ (T ++ [sep])) ++ T) ++ [sep])).length + 0 := by
      simp only [List.length_append, List.length_singleton]
      omega
    have hpibE : posInBlock (P ++ (T ++ sep :: (T ++ sep :: R')))
        (P.length + T.length + 1 + T.length + 1) = 0 := by
      rw [ht1split, hposE]
      exact posInBlock_decomp hAe
        (fun x hx => absurd hx (List.not_mem_nil x)) (Nat.zero_le _)
    have henl2 : enlarge_selection (P ++ (T ++ sep :: (T ++ sep :: R')))
        (P.length + T.length + 1) (P.length + T.length + 1 + T.length + 1)
        = (P.length + T.length + 1,
            P.length + T.length + 1 + T.length + 1 - 1) := by
      unfold enlarge_selection
      rw [if_neg hne2, hsobs2, if_pos hpibE]
    have hdropE : (P ++ (T ++ sep :: (T ++ sep :: R'))).drop
        (P.length + T.length + 1 + T.length + 1 - 1) = sep :: R' := by
      have h' : P ++ (T ++ sep :: (T ++ sep :: R'))
          = ((P ++ (T ++ [sep])) ++ T) ++ (sep :: R') := by simp
      rw [show P.length + T.length + 1 + T.length + 1 - 1
          = P.length + T.length + 1 + T.length from by omega, h']
      exact List.drop_left'
        (by simp only [List.length_append, List.length_singleton]; omega)
    have hremove : (remove_lines (P ++ (T ++ sep :: (T ++ sep :: R')))
        (P.length + T.length + 1) (P.length + T.length + 1 + T.length + 1)).1
        = (P ++ (T ++ [sep])) ++ (sep :: R') := by
      simp only [remove_lines, if_pos hne2, hmin2, hmax2,
        remove_selected_lines, henl2, removeRange]
      rw [htake1, hdropE]
    rw [hremove]
    unfold lineCount
    have htwo : (sep :: R').count sep = R'.count sep + 1 := by simp
    simp only [List.count_append]
    omega
  · -- the duplicated text does not end with a separator: cursor offset 0
    obtain ⟨T1, L', hTsplit, hL', hT1, hL'ne⟩ := split_last T
    have hL'nonnil : L' ≠ [] := hL'ne hlast hTne
    have hL'pos : 0 < L'.length := by
      cases L'
      · exact absurd rfl hL'nonnil
      · simp
    have hdup : duplicate_lines_down (P ++ (T ++ R)) anchor pos
        = (P ++ (T ++ sep :: (T ++ R)),
            (P.length + T.length + 1, P.length + T.length + 1 + T.length)) := by
      simp only [duplicate_lines_down, henl, hslice, if_neg hnoop, if_neg hlast]
      rw [List.take_left, hdropPT]
      simp only [Prod.mk.injEq]
      refine ⟨by simp, by omega, by omega⟩
    simp only [hdup]
    have hne2 : P.length + T.length + 1
        ≠ P.length + T.length + 1 + T.length := by omega
    have hmin2 : min (P.length + T.length + 1)
        (P.length + T.length + 1 + T.length) = P.length + T.length + 1 :=
      min_eq_left (by omega)
    have hmax2 : max (P.length + T.length + 1)
        (P.length + T.length + 1 + T.length)
        = P.length + T.length + 1 + T.length :=
      max_eq_right (by omega)
    have hAfull : sepEnds ((P ++ (T ++ [sep])) ++ T1) :=
      sepEnds_append_cases hA0 hT1
    have ht1split : P ++ (T ++ sep :: (T ++ R))
        = ((P ++ (T ++ [sep])) ++ T1) ++ (L' ++ R) := by
      rw [hTsplit]
      simp
    have hT1len : T1.length + L'.length = T.length := by
      have h := congrArg List.length hTsplit
      simp only [List.length_append] at h
      omega
    have hposE : P.length + T.length + 1 + T.length
        = ((P ++ (T ++ [sep])) ++ T1).length + L'.length := by
      simp only [List.length_append, List.length_singleton]
      omega
    have hpibE : posInBlock (P ++ (T ++ sep :: (T ++ R)))
        (P.length + T.length + 1 + T.length) = L'.length := by
      rw [ht1split, hposE]
      exact posInBlock_decomp hAfull hL' (le_refl _)
    have heobE : endOfBlock (P ++ (T ++ sep :: (T ++ R)))
        (P.length + T.length + 1 + T.length)
        = P.length + T.length + 1 + T.length := by
      rw [ht1split, hposE, endOfBlock_decomp hR hL' (le_refl _)]
    have henl2 : enlarge_selection (P ++ (T ++ sep :: (T ++ R)))
        (P.length + T.length + 1) (P.length + T.length + 1 + T.length)
        = (P.length + T.length + 1, P.length + T.length + 1 + T.length) := by
      unfold enlarge_selection
      rw [if_neg hne2, hsobs2, if_neg (by rw [hpibE]; omega), heobE]
    have hdropE : (P ++ (T ++ sep :: (T ++ R))).drop
        (P.length + T.length + 1 + T.length) = R := by
      have h' : P ++ (T ++ sep :: (T ++ R))
          = ((P ++ (T ++ [sep])) ++ T) ++ R := by simp
      rw [h']
      exact List.drop_left'
        (by simp only [List.length_append, List.length_singleton]; omega)
    have hremove : (remove_lines (P ++ (T ++ sep :: (T ++ R)))
        (P.length + T.length + 1) (P.length + T.length + 1 + T.length)).1
        = (P ++ (T ++ [sep])) ++ R := by
      simp only [remove_lines, if_pos hne2, hmin2, hmax2,
        remove_selected_lines, henl2, removeRange]
      rw [htake1, hdropE]
    rw [hremove]
    unfold lineCount
    simp only [List.count_append]
    omega

theorem C4_duplicate_then_remove_line_count_witness :
    sepEnds ([] : List Char) ∧ sepStarts ([] : List Char) ∧
    enlarge_selection ([] ++ (['x'] ++ [])) (min 1 1) (max 1 1)
      = ((List.length ([] : List Char)),
          (List.length ([] : List Char)) + (List.length ['x'])) ∧
    ¬ isNoopSelText ['x'] ∧
    ((['x'] : List Char).getLast? = some sep → ([] : List Char) ≠ []) ∧
    lineCount (remove_lines
        (duplicate_lines_down ([] ++ (['x'] ++ [])) 1 1).1
        (duplicate_lines_down ([] ++ (['x'] ++ [])) 1 1).2.1
        (duplicate_lines_down ([] ++ (['x'] ++ [])) 1 1).2.2).1
      = lineCount ([] ++ (['x'] ++ [])) + 1 :=
  ⟨by decide, by decide, by decide, by decide, by decide,
    C4_duplicate_then_remove_line_count [] ['x'] [] 1 1
      (by decide) (by decide) (by decide) (by decide) (by decide)⟩

end MindustryEditor
